import Mathlib

/-!
# DER codec and RFC 3161 TSP schema, shallowly embedded

The repository (src/main.rs) declares the Time-Stamp Protocol schema
structures — TimeStampReq, MessageImprint, AlgorithmIdentifier,
TimeStampResp, PKIStatusInfo, ContentInfo, TSTInfo, Accuracy,
GeneralName — and derives their DER codecs (`Asn1Read` / `Asn1Write`)
from the external `asn1` crate, calling `asn1::parse_single` at the top
level.

The generic DER reader/writer layer is not part of src/, so it is
modelled from the spec (spec.md §3, §4.1, §4.2, §7): strict DER length
octets (indefinite and non-minimal long form rejected), strict booleans,
minimal-length nonnegative integers with a value-range check per machine
width, OPTIONAL fields elided by tag peeking, DEFAULT fields elided on
write and — the strict reading policy the spec asks to be documented,
matching both its canonicality invariant and the actual behaviour of the
`asn1` crate — rejected when explicitly encoded, EXPLICIT context tags
wrapping exactly one inner TLV, and CHOICE dispatch on the next tag in
declaration order.  Machine bytes are `Nat` below 256; opaque TLVs,
OBJECT IDENTIFIER content, IA5String content and GeneralizedTime content
are carried as their raw content octets with validity checkers, the way
the `asn1` crate carries borrowed slices.

The schema layer (field types, field order, optional/default policy,
choice tags) is translated field by field from src/main.rs.
-/

set_option maxRecDepth 4000

deriving instance DecidableEq for Except

namespace Tsp

/-- Decode-time error kinds, following the spec's error taxonomy (§7).
`EncodedDefault` is the strict reading policy for DEFAULT fields that
were explicitly encoded; `InvalidStringEncoding` is the IA5String
byte-range check, whose kind §7 leaves unnamed. -/
inductive Err where
  | TruncatedInput
  | TrailingData
  | UnexpectedTag
  | NoMatchingChoice
  | InvalidLengthEncoding
  | InvalidBooleanEncoding
  | InvalidIntegerEncoding
  | InvalidOidEncoding
  | InvalidStringEncoding
  | InvalidTimeFormat
  | MaxDepthExceeded
  | SemanticMismatch
  | EncodedDefault
  deriving DecidableEq

/-- A byte buffer: a list of byte values. -/
abbrev Bytes := List Nat

/-- Every entry of the buffer is an 8-bit byte value. -/
def byteOk (l : Bytes) : Bool := l.all (· < 256)

/-- A decoded tag: class (0 universal, 1 application, 2 context-specific,
3 private), constructed bit, and tag number (spec §3, §4.1 step 1). -/
structure Tag where
  cls : Nat
  constructed : Bool
  num : Nat
  deriving DecidableEq

def tagBool : Tag := ⟨0, false, 1⟩
def tagInt : Tag := ⟨0, false, 2⟩
def tagOctet : Tag := ⟨0, false, 4⟩
def tagOid : Tag := ⟨0, false, 6⟩
def tagIA5 : Tag := ⟨0, false, 22⟩
def tagTime : Tag := ⟨0, false, 24⟩
def tagSeq : Tag := ⟨0, true, 16⟩
def tagCtx (n : Nat) : Tag := ⟨2, true, n⟩

/-- Big-endian base-256 value of a byte list. -/
def natFromBE (l : Bytes) : Nat := l.foldl (fun a b => a * 256 + b) 0

/-- Big-endian base-256 digits of `n` (empty for 0); `fuel ≥ n` suffices. -/
def beDigits (fuel n : Nat) : Bytes :=
  match fuel with
  | 0 => []
  | f + 1 => if n = 0 then [] else beDigits f (n / 256) ++ [n % 256]

/-- Big-endian base-256 digits of `n`; `[]` exactly when `n = 0`. -/
def natBE (n : Nat) : Bytes := beDigits n n

/-- DER length octets: short form below 128, else minimal long form. -/
def encLen (n : Nat) : Bytes :=
  if n < 128 then [n] else (128 + (natBE n).length) :: natBE n

/-- Big-endian base-128 digits of `n`; `fuel ≥ n` suffices. -/
def b128Digits (fuel n : Nat) : Bytes :=
  match fuel with
  | 0 => []
  | f + 1 => if n < 128 then [n] else b128Digits f (n / 128) ++ [n % 128]

/-- Set the continuation bit on every byte but the last. -/
def markCont : Bytes → Bytes
  | [] => []
  | [d] => [d]
  | d :: rest => (d + 128) :: markCont rest

/-- Identifier octets of a tag: single byte for tag numbers below 31,
high-tag-number form (0b11111 then base-128 continuation) above. -/
def encTag (t : Tag) : Bytes :=
  let base := t.cls * 64 + (if t.constructed then 32 else 0)
  if t.num < 31 then [base + t.num]
  else (base + 31) :: markCont (b128Digits t.num t.num)

/-- Base-128 continuation loop of the high-tag-number form (§4.1 step 1):
a leading continuation byte 0x80 is a DER violation.  Returns the tag
number, the consumed bytes and the rest. -/
def readHighTag (first : Bool) (acc : Nat) : Bytes → Except Err (Nat × Bytes × Bytes)
  | [] => .error .TruncatedInput
  | b :: rest =>
    if first = true ∧ b = 128 then .error .UnexpectedTag
    else if 128 ≤ b then
      match readHighTag false (acc * 128 + (b - 128)) rest with
      | .error e => .error e
      | .ok (n, c, r) => .ok (n, b :: c, r)
    else .ok (acc * 128 + b, [b], rest)

/-- Read the identifier octets (§4.1 step 1).  The high-tag-number form is
rejected for tag numbers below 31 (DER minimality).  Returns the tag, the
consumed bytes and the rest. -/
def readTag : Bytes → Except Err (Tag × Bytes × Bytes)
  | [] => .error .TruncatedInput
  | b :: rest =>
    if b % 32 < 31 then
      .ok (⟨b / 64, decide (32 ≤ b % 64), b % 32⟩, [b], rest)
    else
      match readHighTag true 0 rest with
      | .error e => .error e
      | .ok (n, c, r) =>
        if n < 31 then .error .UnexpectedTag
        else .ok (⟨b / 64, decide (32 ≤ b % 64), n⟩, b :: c, r)

/-- Split off exactly `n` bytes, or fail with `TruncatedInput` (§4.1 step 3). -/
def takeExact (n : Nat) (l : Bytes) : Except Err (Bytes × Bytes) :=
  if n ≤ l.length then .ok (l.take n, l.drop n) else .error .TruncatedInput

/-- Read the DER length octets (§3, §4.1 step 2): short form below 128;
0x80 (indefinite) rejected; long form must have no leading zero magnitude
byte and must not be representable in short form.  Returns the length,
the consumed bytes, and the rest. -/
def readLen : Bytes → Except Err (Nat × Bytes × Bytes)
  | [] => .error .TruncatedInput
  | b :: rest =>
    if b < 128 then .ok (b, [b], rest)
    else if b = 128 then .error .InvalidLengthEncoding
    else
      match takeExact (b - 128) rest with
      | .error e => .error e
      | .ok (m, r) =>
        if m.headD 0 = 0 then .error .InvalidLengthEncoding
        else if natFromBE m < 128 then .error .InvalidLengthEncoding
        else .ok (natFromBE m, b :: m, r)

/-- Serialize one TLV: identifier octets, length octets, content (§4.2). -/
def mkTlv (t : Tag) (c : Bytes) : Bytes := encTag t ++ encLen c.length ++ c

/-- Read one TLV header whose tag must equal `t`, surrendering its content
octets and the bytes after the TLV. -/
def expectTlv (t : Tag) (l : Bytes) : Except Err (Bytes × Bytes) :=
  match readTag l with
  | .error e => .error e
  | .ok (t2, _, r1) =>
    if t2 = t then
      match readLen r1 with
      | .error e => .error e
      | .ok (n, _, r2) => takeExact n r2
    else .error .UnexpectedTag

/-- An opaque TLV, carried as its raw bytes (header and content), the way
the `asn1` crate's `Tlv` carries the full borrowed slice. -/
structure Tlv where
  full : Bytes
  deriving DecidableEq

/-- Read one complete TLV, keeping its raw bytes: the opaque pass-through
used for `AlgorithmIdentifier.parameters`, `ContentInfo.content` and
`TSTInfo.extensions` (spec §6). -/
def readTlv (l : Bytes) : Except Err (Tlv × Bytes) :=
  match readTag l with
  | .error e => .error e
  | .ok (_, ct, r1) =>
    match readLen r1 with
    | .error e => .error e
    | .ok (n, cl, r2) =>
      match takeExact n r2 with
      | .error e => .error e
      | .ok (v, r3) => .ok (⟨ct ++ cl ++ v⟩, r3)

/-- A well-formed opaque TLV: its raw bytes are bytes and parse as exactly
one TLV. -/
def tlvWf (x : Tlv) : Bool :=
  byteOk x.full &&
    match readTlv x.full with
    | .ok (_, r) => r.isEmpty
    | .error _ => false

/-- Peek the tag of the next TLV without consuming anything (§4.1,
sequence traversal). -/
def peekTag (l : Bytes) : Option Tag :=
  match readTag l with
  | .ok (t, _, _) => some t
  | .error _ => none

/-- OPTIONAL field: consume the next TLV when its tag matches the field's
expected tag, else leave the field absent (§4.1). -/
def parseOpt {α : Type} (t : Tag) (p : Bytes → Except Err (α × Bytes)) (l : Bytes) :
    Except Err (Option α × Bytes) :=
  if peekTag l = some t then
    match p l with
    | .error e => .error e
    | .ok (v, r) => .ok (some v, r)
  else .ok (none, l)

/-- DEFAULT field: absent on the wire means the default value; a present
field explicitly encoding the default is rejected (strict policy, matching
the spec's canonicality invariant). -/
def parseDefault {α : Type} [DecidableEq α] (t : Tag) (p : Bytes → Except Err (α × Bytes))
    (dflt : α) (l : Bytes) : Except Err (α × Bytes) :=
  if peekTag l = some t then
    match p l with
    | .error e => .error e
    | .ok (v, r) => if v = dflt then .error .EncodedDefault else .ok (v, r)
  else .ok (dflt, l)

/-- A primitive field: one TLV with the expected tag, whose content octets
are decoded by `f` (the Typed Codec Layer of spec §2). -/
def parseField {α : Type} (t : Tag) (f : Bytes → Except Err α) (l : Bytes) :
    Except Err (α × Bytes) :=
  match expectTlv t l with
  | .error e => .error e
  | .ok (c, r) =>
    match f c with
    | .error e => .error e
    | .ok v => .ok (v, r)

/-- EXPLICIT context tag `n`: a constructed wrapper holding exactly one
inner TLV, decoded by `p` (§4.1, EXPLICIT tagging). -/
def parseExplicit {α : Type} (n : Nat) (p : Bytes → Except Err (α × Bytes)) (l : Bytes) :
    Except Err (α × Bytes) :=
  match expectTlv (tagCtx n) l with
  | .error e => .error e
  | .ok (c, r) =>
    match p c with
    | .error e => .error e
    | .ok (v, c2) => if c2 = [] then .ok (v, r) else .error .TrailingData

/-- Minimal unsigned INTEGER content octets: big-endian magnitude, with a
single leading 0x00 only when the top bit would otherwise read as a sign. -/
def encUIntContent (n : Nat) : Bytes :=
  if n = 0 then [0]
  else if (natBE n).headD 0 < 128 then natBE n
  else 0 :: natBE n

/-- INTEGER content octets of an unsigned value below `bound` (§4.1
scalars): nonempty, nonnegative, minimal two's-complement; a leading 0x00
byte only to disambiguate sign; rejects values at or above `bound` (the
machine-width check of the typed integer codecs). -/
def contUInt (bound : Nat) : Bytes → Except Err Nat
  | [] => .error .InvalidIntegerEncoding
  | b :: rest =>
    if 128 ≤ b then .error .InvalidIntegerEncoding
    else if b = 0 ∧ rest ≠ [] ∧ rest.headD 0 < 128 then .error .InvalidIntegerEncoding
    else if natFromBE (b :: rest) < bound then .ok (natFromBE (b :: rest))
    else .error .InvalidIntegerEncoding

/-- BOOLEAN content octets: exactly 0x00 or 0xFF (§4.1 scalars). -/
def contBool : Bytes → Except Err Bool
  | [0] => .ok false
  | [255] => .ok true
  | _ => .error .InvalidBooleanEncoding

/-- One pass over OBJECT IDENTIFIER content octets: base-128 components,
each minimally encoded (no leading 0x80 continuation byte), none left
dangling (§4.1 scalars). -/
def oidCheck (atStart : Bool) : Bytes → Bool
  | [] => atStart
  | b :: rest =>
    if atStart = true ∧ b = 128 then false
    else if 128 ≤ b then oidCheck false rest
    else oidCheck true rest

/-- An OBJECT IDENTIFIER, carried as its DER content octets, the way the
`asn1` crate's `ObjectIdentifier` carries the encoded arcs. -/
structure ObjectIdentifier where
  data : Bytes
  deriving DecidableEq

def oidWf (o : ObjectIdentifier) : Bool :=
  (!o.data.isEmpty) && oidCheck true o.data && byteOk o.data

def contOid (c : Bytes) : Except Err ObjectIdentifier :=
  if (!c.isEmpty) && oidCheck true c then .ok ⟨c⟩ else .error .InvalidOidEncoding

/-- An IA5String, carried as its raw content octets. -/
structure IA5String where
  data : Bytes
  deriving DecidableEq

def ia5Wf (s : IA5String) : Bool := s.data.all (· < 128)

def contIA5 (c : Bytes) : Except Err IA5String :=
  if c.all (· < 128) then .ok ⟨c⟩ else .error .InvalidStringEncoding

def contOctet (c : Bytes) : Except Err Bytes := .ok c

def isDigit (b : Nat) : Bool := 48 ≤ b && b ≤ 57

/-- Fractional seconds after the dot: one or more digits then Z, and the
final digit must not be zero (§4.1, GeneralizedTime).  `lastDigit` is the
previously seen digit. -/
def fracCheck (lastDigit : Nat) : Bytes → Bool
  | [] => false
  | [b] => b == 90 && lastDigit != 48
  | b :: rest => isDigit b && fracCheck b rest

/-- The fixed textual GeneralizedTime format of §4.1:
fourteen digits, an optional fraction with no trailing zero digits, and
the mandatory Z suffix. -/
def gtimeCheck (d : Bytes) : Bool :=
  (d.take 14).length == 14 && (d.take 14).all isDigit &&
    match d.drop 14 with
    | [90] => true
    | 46 :: rest => fracCheck 48 rest
    | _ => false

/-- A GeneralizedTime, carried as its raw content octets (the textual
timestamp), validated against the spec's fixed format. -/
structure GeneralizedTime where
  data : Bytes
  deriving DecidableEq

def gtWf (g : GeneralizedTime) : Bool := gtimeCheck g.data

def contTime (c : Bytes) : Except Err GeneralizedTime :=
  if gtimeCheck c then .ok ⟨c⟩ else .error .InvalidTimeFormat

/-! ## Scalar encoders and field parsers -/

def encUInt (n : Nat) : Bytes := mkTlv tagInt (encUIntContent n)
def encBool (b : Bool) : Bytes := mkTlv tagBool [if b then 255 else 0]
def encOid (o : ObjectIdentifier) : Bytes := mkTlv tagOid o.data
def encOctet (d : Bytes) : Bytes := mkTlv tagOctet d
def encIA5 (s : IA5String) : Bytes := mkTlv tagIA5 s.data
def encTime (g : GeneralizedTime) : Bytes := mkTlv tagTime g.data
def encTlv (x : Tlv) : Bytes := x.full
def encExplicit (n : Nat) (inner : Bytes) : Bytes := mkTlv (tagCtx n) inner

def encOpt {α : Type} (f : α → Bytes) : Option α → Bytes
  | none => []
  | some v => f v

/-- DEFAULT fields equal to their default are omitted on the wire (§4.2). -/
def encDefault {α : Type} [DecidableEq α] (f : α → Bytes) (dflt v : α) : Bytes :=
  if v = dflt then [] else f v

def encSeq (fields : Bytes) : Bytes := mkTlv tagSeq fields

def parseU8 : Bytes → Except Err (Nat × Bytes) := parseField tagInt (contUInt 256)
def parseU32 : Bytes → Except Err (Nat × Bytes) := parseField tagInt (contUInt (2 ^ 32))
def parseU64 : Bytes → Except Err (Nat × Bytes) := parseField tagInt (contUInt (2 ^ 64))
def parseBool : Bytes → Except Err (Bool × Bytes) := parseField tagBool contBool
def parseOid : Bytes → Except Err (ObjectIdentifier × Bytes) := parseField tagOid contOid
def parseIA5 : Bytes → Except Err (IA5String × Bytes) := parseField tagIA5 contIA5
def parseOctet : Bytes → Except Err (Bytes × Bytes) := parseField tagOctet contOctet
def parseTime : Bytes → Except Err (GeneralizedTime × Bytes) := parseField tagTime contTime

def optWf {α : Type} (f : α → Bool) : Option α → Bool
  | none => true
  | some v => f v

/-! ## Protocol schema (translated from src/main.rs)

Integer fields keep the machine widths of the source: `version : u8`,
`nonce : Option<u64>`, `serial_number : u64`, `status : u8`,
`fail_info : Option<u8>`, `Accuracy` fields `Option<u32>`. -/

/-- src/main.rs lines 67–71. -/
structure AlgorithmIdentifier where
  algorithm : ObjectIdentifier
  parameters : Tlv
  deriving DecidableEq

def algWf (a : AlgorithmIdentifier) : Bool := oidWf a.algorithm && tlvWf a.parameters

def encAlgorithmIdentifier (a : AlgorithmIdentifier) : Bytes :=
  encSeq (encOid a.algorithm ++ encTlv a.parameters)

def parseAlgorithmIdentifier (l : Bytes) : Except Err (AlgorithmIdentifier × Bytes) :=
  match expectTlv tagSeq l with
  | .error e => .error e
  | .ok (c, r) =>
    match parseOid c with
    | .error e => .error e
    | .ok (a, c1) =>
      match readTlv c1 with
      | .error e => .error e
      | .ok (p, c2) =>
        if c2 = [] then .ok (⟨a, p⟩, r) else .error .TrailingData

/-- src/main.rs lines 49–65. -/
structure MessageImprint where
  hash_algorithm : AlgorithmIdentifier
  hashed_message : Bytes
  deriving DecidableEq

def impWf (m : MessageImprint) : Bool :=
  algWf m.hash_algorithm && byteOk m.hashed_message

def encMessageImprint (m : MessageImprint) : Bytes :=
  encSeq (encAlgorithmIdentifier m.hash_algorithm ++ encOctet m.hashed_message)

def parseMessageImprint (l : Bytes) : Except Err (MessageImprint × Bytes) :=
  match expectTlv tagSeq l with
  | .error e => .error e
  | .ok (c, r) =>
    match parseAlgorithmIdentifier c with
    | .error e => .error e
    | .ok (a, c1) =>
      match parseOctet c1 with
      | .error e => .error e
      | .ok (h, c2) =>
        if c2 = [] then .ok (⟨a, h⟩, r) else .error .TrailingData

/-- src/main.rs lines 5–47.  The `extensions` field is commented out in
the source ("FIXME: doesn't compile"), so the request has no extensions
field and trailing children are a decode error. -/
structure TimeStampReq where
  version : Nat
  message_imprint : MessageImprint
  req_policy : Option ObjectIdentifier
  nonce : Option Nat
  cert_req : Bool
  deriving DecidableEq

def reqWf (q : TimeStampReq) : Bool :=
  decide (q.version < 256) && impWf q.message_imprint &&
    optWf oidWf q.req_policy && optWf (fun n => decide (n < 2 ^ 64)) q.nonce

def encTimeStampReq (q : TimeStampReq) : Bytes :=
  encSeq (encUInt q.version ++ encMessageImprint q.message_imprint ++
    encOpt encOid q.req_policy ++ encOpt encUInt q.nonce ++
    encDefault encBool false q.cert_req)

def parseTimeStampReq (l : Bytes) : Except Err (TimeStampReq × Bytes) :=
  match expectTlv tagSeq l with
  | .error e => .error e
  | .ok (c, r) =>
    match parseU8 c with
    | .error e => .error e
    | .ok (ver, c1) =>
      match parseMessageImprint c1 with
      | .error e => .error e
      | .ok (imp, c2) =>
        match parseOpt tagOid parseOid c2 with
        | .error e => .error e
        | .ok (pol, c3) =>
          match parseOpt tagInt parseU64 c3 with
          | .error e => .error e
          | .ok (non, c4) =>
            match parseDefault tagBool parseBool false c4 with
            | .error e => .error e
            | .ok (cert, c5) =>
              if c5 = [] then .ok (⟨ver, imp, pol, non, cert⟩, r)
              else .error .TrailingData

/-- src/main.rs lines 79–88.  `status` is a plain `u8` in the source. -/
structure PKIStatusInfo where
  status : Nat
  status_string : Option IA5String
  fail_info : Option Nat
  deriving DecidableEq

def statusWf (s : PKIStatusInfo) : Bool :=
  decide (s.status < 256) && optWf ia5Wf s.status_string &&
    optWf (fun n => decide (n < 256)) s.fail_info

def encPKIStatusInfo (s : PKIStatusInfo) : Bytes :=
  encSeq (encUInt s.status ++ encOpt encIA5 s.status_string ++
    encOpt encUInt s.fail_info)

def parsePKIStatusInfo (l : Bytes) : Except Err (PKIStatusInfo × Bytes) :=
  match expectTlv tagSeq l with
  | .error e => .error e
  | .ok (c, r) =>
    match parseU8 c with
    | .error e => .error e
    | .ok (st, c1) =>
      match parseOpt tagIA5 parseIA5 c1 with
      | .error e => .error e
      | .ok (ss, c2) =>
        match parseOpt tagInt parseU8 c2 with
        | .error e => .error e
        | .ok (fi, c3) =>
          if c3 = [] then .ok (⟨st, ss, fi⟩, r) else .error .TrailingData

/-- src/main.rs lines 140–144. -/
structure ContentInfo where
  content_type : ObjectIdentifier
  content : Tlv
  deriving DecidableEq

def ciWf (c : ContentInfo) : Bool := oidWf c.content_type && tlvWf c.content

def encContentInfo (c : ContentInfo) : Bytes :=
  encSeq (encOid c.content_type ++ encExplicit 0 (encTlv c.content))

def parseContentInfo (l : Bytes) : Except Err (ContentInfo × Bytes) :=
  match expectTlv tagSeq l with
  | .error e => .error e
  | .ok (c, r) =>
    match parseOid c with
    | .error e => .error e
    | .ok (ct, c1) =>
      match parseExplicit 0 readTlv c1 with
      | .error e => .error e
      | .ok (cn, c2) =>
        if c2 = [] then .ok (⟨ct, cn⟩, r) else .error .TrailingData

/-- src/main.rs lines 73–77.  The derived codec reads the two fields;
no cross-field status/token consistency check appears in the source. -/
structure TimeStampResp where
  status : PKIStatusInfo
  time_stamp_token : Option ContentInfo
  deriving DecidableEq

def respWf (x : TimeStampResp) : Bool :=
  statusWf x.status && optWf ciWf x.time_stamp_token

def encTimeStampResp (x : TimeStampResp) : Bytes :=
  encSeq (encPKIStatusInfo x.status ++ encOpt encContentInfo x.time_stamp_token)

def parseTimeStampResp (l : Bytes) : Except Err (TimeStampResp × Bytes) :=
  match expectTlv tagSeq l with
  | .error e => .error e
  | .ok (c, r) =>
    match parsePKIStatusInfo c with
    | .error e => .error e
    | .ok (st, c1) =>
      match parseOpt tagSeq parseContentInfo c1 with
      | .error e => .error e
      | .ok (tok, c2) =>
        if c2 = [] then .ok (⟨st, tok⟩, r) else .error .TrailingData

/-- src/main.rs lines 161–166.  All three fields are plain
`Option<u32>` INTEGERs in the source (no implicit context tags). -/
structure Accuracy where
  seconds : Option Nat
  millis : Option Nat
  micros : Option Nat
  deriving DecidableEq

def accWf (a : Accuracy) : Bool :=
  optWf (fun n => decide (n < 2 ^ 32)) a.seconds &&
    optWf (fun n => decide (n < 2 ^ 32)) a.millis &&
    optWf (fun n => decide (n < 2 ^ 32)) a.micros

/-- The present fields of an `Accuracy` form a prefix: `millis` present
only when `seconds` is, `micros` only when `millis` is.  Because the
source gives all three optional fields the same INTEGER tag, the decoder
assigns present values left to right, so only left-packed values
round-trip. -/
def accPacked (a : Accuracy) : Bool :=
  (a.millis.isSome → a.seconds.isSome) ∧ (a.micros.isSome → a.millis.isSome)

def encAccuracy (a : Accuracy) : Bytes :=
  encSeq (encOpt encUInt a.seconds ++ encOpt encUInt a.millis ++
    encOpt encUInt a.micros)

def parseAccuracy (l : Bytes) : Except Err (Accuracy × Bytes) :=
  match expectTlv tagSeq l with
  | .error e => .error e
  | .ok (c, r) =>
    match parseOpt tagInt parseU32 c with
    | .error e => .error e
    | .ok (se, c1) =>
      match parseOpt tagInt parseU32 c1 with
      | .error e => .error e
      | .ok (mi, c2) =>
        match parseOpt tagInt parseU32 c2 with
        | .error e => .error e
        | .ok (mu, c3) =>
          if c3 = [] then .ok (⟨se, mi, mu⟩, r) else .error .TrailingData

/-- src/main.rs lines 168–176: a CHOICE with one explicitly tagged
alternative per constructor; exactly one alternative is active per value
by construction of the inductive type. -/
inductive GeneralName where
  | OtherName : Tlv → GeneralName
  | DNSName : IA5String → GeneralName
  | UniformResourceIdentifier : IA5String → GeneralName
  | IPAddress : Bytes → GeneralName
  | RegisteredID : ObjectIdentifier → GeneralName
  deriving DecidableEq

def gnWf : GeneralName → Bool
  | .OtherName t => tlvWf t
  | .DNSName s => ia5Wf s
  | .UniformResourceIdentifier s => ia5Wf s
  | .IPAddress d => byteOk d
  | .RegisteredID o => oidWf o

def encGeneralName : GeneralName → Bytes
  | .OtherName t => encExplicit 0 (encTlv t)
  | .DNSName s => encExplicit 2 (encIA5 s)
  | .UniformResourceIdentifier s => encExplicit 6 (encIA5 s)
  | .IPAddress d => encExplicit 7 (encOctet d)
  | .RegisteredID o => encExplicit 8 (encOid o)

/-- CHOICE decoding (§4.1): try the alternatives' context tags in the
declared order against the next TLV; no match is `NoMatchingChoice`. -/
def parseGeneralName (l : Bytes) : Except Err (GeneralName × Bytes) :=
  match peekTag l with
  | none => .error .NoMatchingChoice
  | some t =>
    if t = tagCtx 0 then
      match parseExplicit 0 readTlv l with
      | .error e => .error e
      | .ok (v, r) => .ok (.OtherName v, r)
    else if t = tagCtx 2 then
      match parseExplicit 2 parseIA5 l with
      | .error e => .error e
      | .ok (v, r) => .ok (.DNSName v, r)
    else if t = tagCtx 6 then
      match parseExplicit 6 parseIA5 l with
      | .error e => .error e
      | .ok (v, r) => .ok (.UniformResourceIdentifier v, r)
    else if t = tagCtx 7 then
      match parseExplicit 7 parseOctet l with
      | .error e => .error e
      | .ok (v, r) => .ok (.IPAddress v, r)
    else if t = tagCtx 8 then
      match parseExplicit 8 parseOid l with
      | .error e => .error e
      | .ok (v, r) => .ok (.RegisteredID v, r)
    else .error .NoMatchingChoice

def encTsa (g : GeneralName) : Bytes := encExplicit 0 (encGeneralName g)
def encExt (x : Tlv) : Bytes := encExplicit 1 (encTlv x)

/-- src/main.rs lines 146–159.  `serial_number` is a `u64` in the source. -/
structure TSTInfo where
  version : Nat
  policy : Option ObjectIdentifier
  message_imprint : MessageImprint
  serial_number : Nat
  gen_time : GeneralizedTime
  accuracy : Option Accuracy
  ordering : Bool
  nonce : Option Nat
  tsa : Option GeneralName
  extensions : Option Tlv
  deriving DecidableEq

def tstWf (x : TSTInfo) : Bool :=
  decide (x.version < 256) && optWf oidWf x.policy && impWf x.message_imprint &&
    decide (x.serial_number < 2 ^ 64) && gtWf x.gen_time &&
    optWf accWf x.accuracy && optWf (fun n => decide (n < 2 ^ 64)) x.nonce &&
    optWf gnWf x.tsa && optWf tlvWf x.extensions

def encTSTInfo (x : TSTInfo) : Bytes :=
  encSeq (encUInt x.version ++ encOpt encOid x.policy ++
    encMessageImprint x.message_imprint ++ encUInt x.serial_number ++
    encTime x.gen_time ++ encOpt encAccuracy x.accuracy ++
    encDefault encBool false x.ordering ++ encOpt encUInt x.nonce ++
    encOpt encTsa x.tsa ++ encOpt encExt x.extensions)

def parseTSTInfo (l : Bytes) : Except Err (TSTInfo × Bytes) :=
  match expectTlv tagSeq l with
  | .error e => .error e
  | .ok (c, r) =>
    match parseU8 c with
    | .error e => .error e
    | .ok (ver, c1) =>
      match parseOpt tagOid parseOid c1 with
      | .error e => .error e
      | .ok (pol, c2) =>
        match parseMessageImprint c2 with
        | .error e => .error e
        | .ok (imp, c3) =>
          match parseU64 c3 with
          | .error e => .error e
          | .ok (ser, c4) =>
            match parseTime c4 with
            | .error e => .error e
            | .ok (gt, c5) =>
              match parseOpt tagSeq parseAccuracy c5 with
              | .error e => .error e
              | .ok (acc, c6) =>
                match parseDefault tagBool parseBool false c6 with
                | .error e => .error e
                | .ok (ord, c7) =>
                  match parseOpt tagInt parseU64 c7 with
                  | .error e => .error e
                  | .ok (non, c8) =>
                    match parseOpt (tagCtx 0) (parseExplicit 0 parseGeneralName) c8 with
                    | .error e => .error e
                    | .ok (ts, c9) =>
                      match parseOpt (tagCtx 1) (parseExplicit 1 readTlv) c9 with
                      | .error e => .error e
                      | .ok (ex, c10) =>
                        if c10 = [] then
                          .ok (⟨ver, pol, imp, ser, gt, acc, ord, non, ts, ex⟩, r)
                        else .error .TrailingData

/-- Top-level entry, modelling `asn1::parse_single` as called at
src/main.rs lines 180 and 184: decode exactly one TLV and require it to
consume the entire buffer; trailing bytes are `TrailingData` (§4.1). -/
def fromDer {α : Type} (p : Bytes → Except Err (α × Bytes)) (l : Bytes) : Except Err α :=
  match p l with
  | .error e => .error e
  | .ok (v, r) => if r = [] then .ok v else .error .TrailingData

def reqFromDer : Bytes → Except Err TimeStampReq := fromDer parseTimeStampReq
def respFromDer : Bytes → Except Err TimeStampResp := fromDer parseTimeStampResp
def tstFromDer : Bytes → Except Err TSTInfo := fromDer parseTSTInfo

/-! ## Arithmetic and list toolkit -/

theorem byteOk_append (a b : Bytes) : byteOk (a ++ b) = (byteOk a && byteOk b) := by
  simp [byteOk, List.all_append]

theorem headD_append {l : Bytes} (l2 : Bytes) (h : l ≠ []) (d : Nat) :
    (l ++ l2).headD d = l.headD d := by
  cases l with
  | nil => exact absurd rfl h
  | cons a t => simp

theorem natFromBE_go (l : Bytes) (a : Nat) :
    l.foldl (fun x b => x * 256 + b) a = a * 256 ^ l.length + natFromBE l := by
  induction l generalizing a with
  | nil => simp [natFromBE]
  | cons b t ih =>
    simp only [List.foldl_cons, List.length_cons, natFromBE, Nat.zero_mul, Nat.zero_add]
    rw [ih (a * 256 + b), ih b]
    simp only [natFromBE]
    ring

theorem natFromBE_cons (b : Nat) (t : Bytes) :
    natFromBE (b :: t) = b * 256 ^ t.length + natFromBE t := by
  have h2 : natFromBE (b :: t) = t.foldl (fun x c => x * 256 + c) b := by
    simp [natFromBE]
  rw [h2, natFromBE_go]

theorem natFromBE_append_one (l : Bytes) (b : Nat) :
    natFromBE (l ++ [b]) = natFromBE l * 256 + b := by
  simp [natFromBE, List.foldl_append]

theorem natFromBE_pos {l : Bytes} (h1 : l ≠ []) (h2 : l.headD 0 ≠ 0) :
    1 ≤ natFromBE l := by
  cases l with
  | nil => exact absurd rfl h1
  | cons b t =>
    rw [natFromBE_cons]
    have hb : 1 ≤ b := Nat.pos_of_ne_zero (by simpa using h2)
    have h1b : 1 ≤ b * 256 ^ t.length := Nat.one_le_iff_ne_zero.mpr (by positivity)
    omega

theorem beDigits_zero (f : Nat) : beDigits f 0 = [] := by
  cases f <;> simp [beDigits]

theorem beDigits_fuel (f g n : Nat) (hf : n ≤ f) (hg : n ≤ g) :
    beDigits f n = beDigits g n := by
  induction f generalizing g n with
  | zero =>
    have : n = 0 := Nat.le_zero.mp hf
    subst this
    rw [beDigits_zero, beDigits_zero]
  | succ f ih =>
    cases g with
    | zero =>
      have : n = 0 := Nat.le_zero.mp hg
      subst this
      rw [beDigits_zero, beDigits_zero]
    | succ g =>
      by_cases h : n = 0
      · subst h
        rw [beDigits_zero, beDigits_zero]
      · have hlt : n / 256 < n := Nat.div_lt_self (Nat.pos_of_ne_zero h) (by norm_num)
        simp only [beDigits, if_neg h]
        rw [ih g (n / 256) (by omega) (by omega)]

theorem natBE_unfold (n : Nat) (h : n ≠ 0) :
    natBE n = beDigits (n - 1) (n / 256) ++ [n % 256] := by
  obtain ⟨m, rfl⟩ : ∃ m, n = m + 1 := ⟨n - 1, by omega⟩
  simp [natBE, beDigits]

theorem natBE_spec (n : Nat) (h : n ≠ 0) :
    natBE n ≠ [] ∧ (natBE n).headD 0 ≠ 0 ∧ byteOk (natBE n) = true ∧
      natFromBE (natBE n) = n := by
  induction n using Nat.strong_induction_on with
  | _ n ih =>
    rw [natBE_unfold n h]
    by_cases hsm : n < 256
    · have hdiv : n / 256 = 0 := Nat.div_eq_of_lt hsm
      have hmod : n % 256 = n := Nat.mod_eq_of_lt hsm
      rw [hdiv, beDigits_zero, hmod]
      exact ⟨by simp, by simpa using h, by simp [byteOk, hsm], by simp [natFromBE]⟩
    · have hq1 : n / 256 ≠ 0 := by omega
      have hqlt : n / 256 < n := Nat.div_lt_self (by omega) (by norm_num)
      have hfu : beDigits (n - 1) (n / 256) = natBE (n / 256) :=
        beDigits_fuel (n - 1) (n / 256) (n / 256) (by omega) (le_refl _)
      rw [hfu]
      obtain ⟨ha, hb, hc, hd⟩ := ih (n / 256) hqlt hq1
      have hm : n % 256 < 256 := Nat.mod_lt _ (by norm_num)
      refine ⟨by simp, ?_, ?_, ?_⟩
      · rw [headD_append _ ha]
        exact hb
      · rw [byteOk_append, hc]
        simp [byteOk, hm]
      · rw [natFromBE_append_one, hd]
        omega

theorem natBE_small {b : Nat} (h1 : 1 ≤ b) (h2 : b < 256) : natBE b = [b] := by
  rw [natBE_unfold b (by omega), Nat.div_eq_of_lt h2, beDigits_zero,
    Nat.mod_eq_of_lt h2]
  simp

theorem natBE_step {v b : Nat} (h1 : 1 ≤ v) (h2 : b < 256) :
    natBE (v * 256 + b) = natBE v ++ [b] := by
  have hdiv : (v * 256 + b) / 256 = v := by omega
  have hmod : (v * 256 + b) % 256 = b := by omega
  rw [natBE_unfold _ (by omega), hdiv, hmod]
  congr 1
  exact beDigits_fuel (v * 256 + b - 1) v v (by omega) (le_refl v)

theorem natBE_inv {l : Bytes} (h1 : l ≠ []) (h2 : l.headD 0 ≠ 0) (h3 : byteOk l = true) :
    natBE (natFromBE l) = l := by
  induction l using List.reverseRecOn with
  | nil => exact absurd rfl h1
  | append_singleton xs b ih =>
    rw [natFromBE_append_one]
    have hb : b < 256 := by
      rw [byteOk_append] at h3
      simp only [Bool.and_eq_true] at h3
      simpa [byteOk] using h3.2
    cases xs with
    | nil =>
      have hbne : b ≠ 0 := by simpa using h2
      simpa [natFromBE] using natBE_small (Nat.pos_of_ne_zero hbne) hb
    | cons x t =>
      have hxs : (x :: t : Bytes) ≠ [] := by simp
      have hx : (x :: t : Bytes).headD 0 ≠ 0 := by
        rw [headD_append _ hxs] at h2
        exact h2
      have hbo : byteOk (x :: t) = true := by
        rw [byteOk_append] at h3
        simp only [Bool.and_eq_true] at h3
        exact h3.1
      have hpos : 1 ≤ natFromBE (x :: t) := natFromBE_pos hxs hx
      rw [natBE_step hpos hb, ih hxs hx hbo]

/-! ## Low-level reader lemmas: split, extension, re-parse, inversion -/

theorem takeExact_eq {n : Nat} {l v r : Bytes} (h : takeExact n l = .ok (v, r)) :
    l = v ++ r ∧ v.length = n := by
  unfold takeExact at h
  by_cases hn : n ≤ l.length
  · rw [if_pos hn] at h
    simp only [Except.ok.injEq, Prod.mk.injEq] at h
    obtain ⟨hv, hr⟩ := h
    subst hv
    subst hr
    exact ⟨(List.take_append_drop n l).symm, by rw [List.length_take]; omega⟩
  · rw [if_neg hn] at h
    exact Except.noConfusion h

theorem takeExact_exact (v s : Bytes) : takeExact v.length (v ++ s) = .ok (v, s) := by
  unfold takeExact
  rw [if_pos (by simp)]
  rw [List.take_left, List.drop_left]

theorem takeExact_ext {n : Nat} {l v r : Bytes} (s : Bytes) (h : takeExact n l = .ok (v, r)) :
    takeExact n (l ++ s) = .ok (v, r ++ s) := by
  obtain ⟨hl, hn⟩ := takeExact_eq h
  subst hl
  subst hn
  rw [List.append_assoc]
  exact takeExact_exact v (r ++ s)

theorem takeExact_reparse {n : Nat} {l v r : Bytes} (h : takeExact n l = .ok (v, r)) :
    takeExact n v = .ok (v, []) := by
  obtain ⟨hl, hn⟩ := takeExact_eq h
  subst hn
  simpa using takeExact_exact v []

theorem readHighTag_split {l : Bytes} {first : Bool} {acc n : Nat} {c r : Bytes}
    (h : readHighTag first acc l = .ok (n, c, r)) : l = c ++ r := by
  induction l generalizing first acc n c r with
  | nil => exact Except.noConfusion h
  | cons b rest ih =>
    by_cases h1 : first = true ∧ b = 128
    · simp only [readHighTag, if_pos h1] at h
      exact Except.noConfusion h
    · by_cases h2 : 128 ≤ b
      · simp only [readHighTag, if_neg h1, if_pos h2] at h
        cases hrec : readHighTag false (acc * 128 + (b - 128)) rest with
        | error e =>
          rw [hrec] at h
          exact Except.noConfusion h
        | ok x =>
          obtain ⟨n2, c2, r2⟩ := x
          rw [hrec] at h
          simp only [Except.ok.injEq, Prod.mk.injEq] at h
          obtain ⟨hn, hc, hr⟩ := h
          subst hn
          subst hr
          rw [← hc]
          simp [ih hrec]
      · simp only [readHighTag, if_neg h1, if_neg h2, Except.ok.injEq, Prod.mk.injEq] at h
        obtain ⟨hn, hc, hr⟩ := h
        subst hr
        rw [← hc]
        simp

theorem readHighTag_ext {l : Bytes} {first : Bool} {acc n : Nat} {c r : Bytes} (s : Bytes)
    (h : readHighTag first acc l = .ok (n, c, r)) :
    readHighTag first acc (l ++ s) = .ok (n, c, r ++ s) := by
  induction l generalizing first acc n c r with
  | nil => exact Except.noConfusion h
  | cons b rest ih =>
    by_cases h1 : first = true ∧ b = 128
    · simp only [readHighTag, if_pos h1] at h
      exact Except.noConfusion h
    · by_cases h2 : 128 ≤ b
      · simp only [readHighTag, if_neg h1, if_pos h2] at h
        cases hrec : readHighTag false (acc * 128 + (b - 128)) rest with
        | error e =>
          rw [hrec] at h
          exact Except.noConfusion h
        | ok x =>
          obtain ⟨n2, c2, r2⟩ := x
          rw [hrec] at h
          simp only [Except.ok.injEq, Prod.mk.injEq] at h
          obtain ⟨hn, hc, hr⟩ := h
          subst hn
          subst hr
          rw [← hc]
          show readHighTag first acc (b :: (rest ++ s)) = _
          simp only [readHighTag, if_neg h1, if_pos h2]
          rw [ih hrec]
      · simp only [readHighTag, if_neg h1, if_neg h2, Except.ok.injEq, Prod.mk.injEq] at h
        obtain ⟨hn, hc, hr⟩ := h
        subst hn
        subst hr
        rw [← hc]
        show readHighTag first acc (b :: (rest ++ s)) = _
        simp only [readHighTag, if_neg h1, if_neg h2]

theorem readHighTag_reparse {l : Bytes} {first : Bool} {acc n : Nat} {c r : Bytes}
    (h : readHighTag first acc l = .ok (n, c, r)) :
    readHighTag first acc c = .ok (n, c, []) := by
  induction l generalizing first acc n c r with
  | nil => exact Except.noConfusion h
  | cons b rest ih =>
    by_cases h1 : first = true ∧ b = 128
    · simp only [readHighTag, if_pos h1] at h
      exact Except.noConfusion h
    · by_cases h2 : 128 ≤ b
      · simp only [readHighTag, if_neg h1, if_pos h2] at h
        cases hrec : readHighTag false (acc * 128 + (b - 128)) rest with
        | error e =>
          rw [hrec] at h
          exact Except.noConfusion h
        | ok x =>
          obtain ⟨n2, c2, r2⟩ := x
          rw [hrec] at h
          simp only [Except.ok.injEq, Prod.mk.injEq] at h
          obtain ⟨hn, hc, hr⟩ := h
          subst hn
          subst hr
          rw [← hc]
          simp only [readHighTag, if_neg h1, if_pos h2]
          rw [ih hrec]
      · simp only [readHighTag, if_neg h1, if_neg h2, Except.ok.injEq, Prod.mk.injEq] at h
        obtain ⟨hn, hc, hr⟩ := h
        subst hn
        subst hr
        rw [← hc]
        simp only [readHighTag, if_neg h1, if_neg h2]

theorem readTag_split {l : Bytes} {t : Tag} {c r : Bytes}
    (h : readTag l = .ok (t, c, r)) : l = c ++ r := by
  cases l with
  | nil => exact Except.noConfusion h
  | cons b rest =>
    by_cases hb : b % 32 < 31
    · simp only [readTag, if_pos hb, Except.ok.injEq, Prod.mk.injEq] at h
      obtain ⟨h1, h2, h3⟩ := h
      subst h3
      rw [← h2]
      simp
    · simp only [readTag, if_neg hb] at h
      split at h
      · exact Except.noConfusion h
      · rename_i n2 c2 r2 heq
        by_cases h31 : n2 < 31
        · rw [if_pos h31] at h
          exact Except.noConfusion h
        · rw [if_neg h31] at h
          simp only [Except.ok.injEq, Prod.mk.injEq] at h
          obtain ⟨h1, h2, h3⟩ := h
          subst h3
          rw [← h2]
          simp [readHighTag_split heq]

theorem readTag_ext {l : Bytes} {t : Tag} {c r : Bytes} (s : Bytes)
    (h : readTag l = .ok (t, c, r)) :
    readTag (l ++ s) = .ok (t, c, r ++ s) := by
  cases l with
  | nil => exact Except.noConfusion h
  | cons b rest =>
    by_cases hb : b % 32 < 31
    · simp only [readTag, if_pos hb, Except.ok.injEq, Prod.mk.injEq] at h
      obtain ⟨h1, h2, h3⟩ := h
      subst h1
      subst h3
      rw [← h2]
      show readTag (b :: (rest ++ s)) = _
      simp only [readTag, if_pos hb]
    · simp only [readTag, if_neg hb] at h
      split at h
      · exact Except.noConfusion h
      · rename_i n2 c2 r2 heq
        by_cases h31 : n2 < 31
        · rw [if_pos h31] at h
          exact Except.noConfusion h
        · rw [if_neg h31] at h
          simp only [Except.ok.injEq, Prod.mk.injEq] at h
          obtain ⟨h1, h2, h3⟩ := h
          subst h1
          subst h3
          rw [← h2]
          show readTag (b :: (rest ++ s)) = _
          simp only [readTag, if_neg hb]
          rw [readHighTag_ext s heq]
          simp [if_neg h31]

theorem readTag_reparse {l : Bytes} {t : Tag} {c r : Bytes}
    (h : readTag l = .ok (t, c, r)) : readTag c = .ok (t, c, []) := by
  cases l with
  | nil => exact Except.noConfusion h
  | cons b rest =>
    by_cases hb : b % 32 < 31
    · simp only [readTag, if_pos hb, Except.ok.injEq, Prod.mk.injEq] at h
      obtain ⟨h1, h2, h3⟩ := h
      subst h1
      rw [← h2]
      simp only [readTag, if_pos hb]
    · simp only [readTag, if_neg hb] at h
      split at h
      · exact Except.noConfusion h
      · rename_i n2 c2 r2 heq
        by_cases h31 : n2 < 31
        · rw [if_pos h31] at h
          exact Except.noConfusion h
        · rw [if_neg h31] at h
          simp only [Except.ok.injEq, Prod.mk.injEq] at h
          obtain ⟨h1, h2, h3⟩ := h
          subst h1
          rw [← h2]
          simp only [readTag, if_neg hb]
          rw [readHighTag_reparse heq]
          simp [if_neg h31]

theorem byteOk_split {a b : Bytes} (h : byteOk (a ++ b) = true) :
    byteOk a = true ∧ byteOk b = true := by
  rw [byteOk_append] at h
  simpa [Bool.and_eq_true] using h

theorem readLen_enc (n : Nat) (s : Bytes) :
    readLen (encLen n ++ s) = .ok (n, encLen n, s) := by
  by_cases h : n < 128
  · simp [encLen, readLen, h]
  · obtain ⟨hne, hhead, hbytes, hval⟩ := natBE_spec n (by omega)
    have hL : 1 ≤ (natBE n).length := List.length_pos.mpr hne
    have hsub : 128 + (natBE n).length - 128 = (natBE n).length := by omega
    simp only [encLen, if_neg h, List.cons_append, readLen,
      if_neg (show ¬128 + (natBE n).length < 128 by omega),
      if_neg (show ¬128 + (natBE n).length = 128 by omega), hsub,
      takeExact_exact (natBE n) s]
    rw [if_neg hhead, hval, if_neg h]

theorem readLen_inv {l : Bytes} {n : Nat} {c r : Bytes}
    (h : readLen l = .ok (n, c, r)) (hb : byteOk l = true) :
    c = encLen n ∧ l = c ++ r := by
  cases l with
  | nil => exact Except.noConfusion h
  | cons b rest =>
    by_cases h1 : b < 128
    · simp only [readLen, if_pos h1, Except.ok.injEq, Prod.mk.injEq] at h
      obtain ⟨hn, hc, hr⟩ := h
      subst hn
      subst hr
      rw [← hc]
      exact ⟨by simp [encLen, h1], by simp⟩
    · by_cases h2 : b = 128
      · simp only [readLen, if_neg h1, if_pos h2] at h
        exact Except.noConfusion h
      · simp only [readLen, if_neg h1, if_neg h2] at h
        split at h
        · exact Except.noConfusion h
        · rename_i m r2 heq
          by_cases h3 : m.headD 0 = 0
          · rw [if_pos h3] at h
            exact Except.noConfusion h
          · rw [if_neg h3] at h
            by_cases h4 : natFromBE m < 128
            · rw [if_pos h4] at h
              exact Except.noConfusion h
            · rw [if_neg h4] at h
              simp only [Except.ok.injEq, Prod.mk.injEq] at h
              obtain ⟨hn, hc, hr⟩ := h
              subst hr
              obtain ⟨hrm, hlen⟩ := takeExact_eq heq
              have hmne : m ≠ [] := by
                intro hm
                rw [hm] at hlen
                simp at hlen
                omega
              have hmbytes : byteOk m = true := by
                have : byteOk rest = true := by
                  simp only [byteOk, List.all_cons, Bool.and_eq_true] at hb
                  exact hb.2
                rw [hrm] at this
                exact (byteOk_split this).1
              have hinv : natBE (natFromBE m) = m := natBE_inv hmne h3 hmbytes
              constructor
              · rw [← hc, ← hn, encLen, if_neg h4, hinv, hlen]
                have : 128 + (b - 128) = b := by omega
                rw [this]
              · rw [← hc, hrm]
                simp

theorem readLen_ext {l : Bytes} {n : Nat} {c r : Bytes} (s : Bytes)
    (h : readLen l = .ok (n, c, r)) : readLen (l ++ s) = .ok (n, c, r ++ s) := by
  cases l with
  | nil => exact Except.noConfusion h
  | cons b rest =>
    by_cases h1 : b < 128
    · simp only [readLen, if_pos h1, Except.ok.injEq, Prod.mk.injEq] at h
      obtain ⟨hn, hc, hr⟩ := h
      subst hn
      subst hr
      rw [← hc]
      show readLen (b :: (rest ++ s)) = _
      simp [readLen, if_pos h1]
    · by_cases h2 : b = 128
      · simp only [readLen, if_neg h1, if_pos h2] at h
        exact Except.noConfusion h
      · simp only [readLen, if_neg h1, if_neg h2] at h
        split at h
        · exact Except.noConfusion h
        · rename_i m r2 heq
          by_cases h3 : m.headD 0 = 0
          · rw [if_pos h3] at h
            exact Except.noConfusion h
          · rw [if_neg h3] at h
            by_cases h4 : natFromBE m < 128
            · rw [if_pos h4] at h
              exact Except.noConfusion h
            · rw [if_neg h4] at h
              simp only [Except.ok.injEq, Prod.mk.injEq] at h
              obtain ⟨hn, hc, hr⟩ := h
              subst hn
              subst hr
              rw [← hc]
              show readLen (b :: (rest ++ s)) = _
              simp only [readLen, if_neg h1, if_neg h2, takeExact_ext s heq]
              rw [if_neg h3, if_neg h4]

theorem readLen_reparse {l : Bytes} {n : Nat} {c r : Bytes}
    (h : readLen l = .ok (n, c, r)) : readLen c = .ok (n, c, []) := by
  cases l with
  | nil => exact Except.noConfusion h
  | cons b rest =>
    by_cases h1 : b < 128
    · simp only [readLen, if_pos h1, Except.ok.injEq, Prod.mk.injEq] at h
      obtain ⟨hn, hc, hr⟩ := h
      subst hn
      rw [← hc]
      simp [readLen, if_pos h1]
    · by_cases h2 : b = 128
      · simp only [readLen, if_neg h1, if_pos h2] at h
        exact Except.noConfusion h
      · simp only [readLen, if_neg h1, if_neg h2] at h
        split at h
        · exact Except.noConfusion h
        · rename_i m r2 heq
          by_cases h3 : m.headD 0 = 0
          · rw [if_pos h3] at h
            exact Except.noConfusion h
          · rw [if_neg h3] at h
            by_cases h4 : natFromBE m < 128
            · rw [if_pos h4] at h
              exact Except.noConfusion h
            · rw [if_neg h4] at h
              simp only [Except.ok.injEq, Prod.mk.injEq] at h
              obtain ⟨hn, hc, hr⟩ := h
              subst hn
              rw [← hc]
              simp only [readLen, if_neg h1, if_neg h2, takeExact_reparse heq]
              rw [if_neg h3, if_neg h4]

theorem readTag_enc {t : Tag} (h1 : t.cls ≤ 3) (h2 : t.num < 31) (s : Bytes) :
    readTag (encTag t ++ s) = .ok (t, encTag t, s) := by
  obtain ⟨cls, cons, num⟩ := t
  simp only at h1 h2
  cases cons with
  | false =>
    have e0 : (cls * 64 + num) % 32 < 31 := by omega
    have e1 : (cls * 64 + num) % 32 = num := by omega
    have e2 : (cls * 64 + num) / 64 = cls := by omega
    have e3 : ¬32 ≤ (cls * 64 + num) % 64 := by omega
    simp [encTag, if_pos h2, readTag, if_pos e0, e1, e2, decide_eq_false e3]
  | true =>
    have e0 : (cls * 64 + 32 + num) % 32 < 31 := by omega
    have e1 : (cls * 64 + 32 + num) % 32 = num := by omega
    have e2 : (cls * 64 + 32 + num) / 64 = cls := by omega
    have e3 : 32 ≤ (cls * 64 + 32 + num) % 64 := by omega
    simp [encTag, if_pos h2, readTag, if_pos e0, e1, e2, decide_eq_true e3]

theorem readTag_inv_small {l : Bytes} {t : Tag} {c r : Bytes}
    (h : readTag l = .ok (t, c, r)) (ht : t.num < 31) (hb : byteOk l = true) :
    c = encTag t := by
  cases l with
  | nil => exact Except.noConfusion h
  | cons b rest =>
    have hblt : b < 256 := by
      simp only [byteOk, List.all_cons, Bool.and_eq_true, decide_eq_true_eq] at hb
      exact hb.1
    by_cases h1 : b % 32 < 31
    · simp only [readTag, if_pos h1, Except.ok.injEq, Prod.mk.injEq] at h
      obtain ⟨hteq, hc, hr⟩ := h
      rw [← hc, ← hteq]
      by_cases h32 : 32 ≤ b % 64
      · simp [encTag, h1, decide_eq_true h32]
        omega
      · simp [encTag, h1, decide_eq_false h32]
        omega
    · simp only [readTag, if_neg h1] at h
      split at h
      · exact Except.noConfusion h
      · rename_i n2 c2 r2 heq
        by_cases h31 : n2 < 31
        · rw [if_pos h31] at h
          exact Except.noConfusion h
        · rw [if_neg h31] at h
          simp only [Except.ok.injEq, Prod.mk.injEq] at h
          obtain ⟨hteq, hc, hr⟩ := h
          rw [← hteq] at ht
          simp only at ht
          exact absurd ht h31

theorem peekTag_mkTlv {t : Tag} (h1 : t.cls ≤ 3) (h2 : t.num < 31) (c s : Bytes) :
    peekTag (mkTlv t c ++ s) = some t := by
  simp only [peekTag, mkTlv, List.append_assoc, readTag_enc h1 h2]

theorem peekTag_nil : peekTag [] = none := rfl

theorem expectTlv_enc {t : Tag} (h1 : t.cls ≤ 3) (h2 : t.num < 31) (c s : Bytes) :
    expectTlv t (mkTlv t c ++ s) = .ok (c, s) := by
  have hlen : readLen (encLen c.length ++ (c ++ s)) = .ok (c.length, encLen c.length, c ++ s) :=
    readLen_enc c.length (c ++ s)
  simp [expectTlv, mkTlv, List.append_assoc, readTag_enc h1 h2, hlen, takeExact_exact]

theorem expectTlv_inv {t : Tag} {l c r : Bytes}
    (h : expectTlv t l = .ok (c, r)) (ht : t.num < 31) (hb : byteOk l = true) :
    l = mkTlv t c ++ r := by
  unfold expectTlv at h
  split at h
  · exact Except.noConfusion h
  · rename_i t2 ct r1 heq
    by_cases hteq : t2 = t
    · rw [if_pos hteq] at h
      subst hteq
      split at h
      · exact Except.noConfusion h
      · rename_i n cl r2 heq2
        have hsp1 : l = ct ++ r1 := readTag_split heq
        have hct : ct = encTag t2 := readTag_inv_small heq ht hb
        have hbr1 : byteOk r1 = true := by
          rw [hsp1] at hb
          exact (byteOk_split hb).2
        obtain ⟨hcl, hsp2⟩ := readLen_inv heq2 hbr1
        obtain ⟨hsp3, hn⟩ := takeExact_eq h
        rw [hsp1, hsp2, hsp3, hct, hcl, ← hn]
        simp [mkTlv]
    · rw [if_neg hteq] at h
      exact Except.noConfusion h

theorem expectTlv_ext {t : Tag} {l c r : Bytes} (s : Bytes)
    (h : expectTlv t l = .ok (c, r)) : expectTlv t (l ++ s) = .ok (c, r ++ s) := by
  unfold expectTlv at h ⊢
  split at h
  · exact Except.noConfusion h
  · rename_i t2 ct r1 heq
    simp only [readTag_ext s heq]
    by_cases hteq : t2 = t
    · rw [if_pos hteq] at h ⊢
      split at h
      · exact Except.noConfusion h
      · rename_i n cl r2 heq2
        simp only [readLen_ext s heq2]
        exact takeExact_ext s h
    · rw [if_neg hteq] at h
      exact Except.noConfusion h

theorem readLen_split {l : Bytes} {n : Nat} {c r : Bytes}
    (h : readLen l = .ok (n, c, r)) : l = c ++ r := by
  cases l with
  | nil => exact Except.noConfusion h
  | cons b rest =>
    by_cases h1 : b < 128
    · simp only [readLen, if_pos h1, Except.ok.injEq, Prod.mk.injEq] at h
      obtain ⟨hn, hc, hr⟩ := h
      subst hr
      rw [← hc]
      simp
    · by_cases h2 : b = 128
      · simp only [readLen, if_neg h1, if_pos h2] at h
        exact Except.noConfusion h
      · simp only [readLen, if_neg h1, if_neg h2] at h
        split at h
        · exact Except.noConfusion h
        · rename_i m r2 heq
          by_cases h3 : m.headD 0 = 0
          · rw [if_pos h3] at h
            exact Except.noConfusion h
          · rw [if_neg h3] at h
            by_cases h4 : natFromBE m < 128
            · rw [if_pos h4] at h
              exact Except.noConfusion h
            · rw [if_neg h4] at h
              simp only [Except.ok.injEq, Prod.mk.injEq] at h
              obtain ⟨hn, hc, hr⟩ := h
              subst hr
              rw [← hc]
              obtain ⟨hsp, hl⟩ := takeExact_eq heq
              rw [hsp]
              simp

theorem readTlv_split {l : Bytes} {x : Tlv} {r : Bytes}
    (h : readTlv l = .ok (x, r)) : l = x.full ++ r := by
  unfold readTlv at h
  split at h
  · exact Except.noConfusion h
  · rename_i t ct r1 heq
    split at h
    · exact Except.noConfusion h
    · rename_i n cl r2 heq2
      split at h
      · exact Except.noConfusion h
      · rename_i v r3 heq3
        simp only [Except.ok.injEq, Prod.mk.injEq] at h
        obtain ⟨hx, hr⟩ := h
        subst hr
        rw [← hx]
        obtain ⟨hsp3, hl⟩ := takeExact_eq heq3
        rw [readTag_split heq, readLen_split heq2, hsp3]
        simp

theorem readTlv_ext {l : Bytes} {x : Tlv} {r : Bytes} (s : Bytes)
    (h : readTlv l = .ok (x, r)) : readTlv (l ++ s) = .ok (x, r ++ s) := by
  unfold readTlv at h ⊢
  split at h
  · exact Except.noConfusion h
  · rename_i t ct r1 heq
    simp only [readTag_ext s heq]
    split at h
    · exact Except.noConfusion h
    · rename_i n cl r2 heq2
      simp only [readLen_ext s heq2]
      split at h
      · exact Except.noConfusion h
      · rename_i v r3 heq3
        simp only [takeExact_ext s heq3]
        simp only [Except.ok.injEq, Prod.mk.injEq] at h ⊢
        obtain ⟨hx, hr⟩ := h
        subst hr
        exact ⟨hx, rfl⟩

theorem readTlv_reparse {l : Bytes} {x : Tlv} {r : Bytes}
    (h : readTlv l = .ok (x, r)) : readTlv x.full = .ok (x, []) := by
  unfold readTlv at h ⊢
  split at h
  · exact Except.noConfusion h
  · rename_i t ct r1 heq
    split at h
    · exact Except.noConfusion h
    · rename_i n cl r2 heq2
      split at h
      · exact Except.noConfusion h
      · rename_i v r3 heq3
        simp only [Except.ok.injEq, Prod.mk.injEq] at h
        obtain ⟨hx, hr⟩ := h
        rw [← hx]
        have hT1 : readTag ct = .ok (t, ct, []) := readTag_reparse heq
        have hT2 : readTag (ct ++ (cl ++ v)) = .ok (t, ct, cl ++ v) := by
          simpa using readTag_ext (cl ++ v) hT1
        have hL1 : readLen cl = .ok (n, cl, []) := readLen_reparse heq2
        have hL2 : readLen (cl ++ v) = .ok (n, cl, v) := by
          simpa using readLen_ext v hL1
        have hE : takeExact n v = .ok (v, []) := takeExact_reparse heq3
        simp only [List.append_assoc, hT2, hL2, hE]

theorem readTlv_wf {l : Bytes} {x : Tlv} {r : Bytes}
    (h : readTlv l = .ok (x, r)) (hb : byteOk l = true) : tlvWf x = true := by
  have hsp := readTlv_split h
  have hbx : byteOk x.full = true := by
    rw [hsp] at hb
    exact (byteOk_split hb).1
  have hrp := readTlv_reparse h
  simp [tlvWf, hbx, hrp]

theorem readTlv_enc {x : Tlv} (hw : tlvWf x = true) (s : Bytes) :
    readTlv (x.full ++ s) = .ok (x, s) := by
  simp only [tlvWf, Bool.and_eq_true] at hw
  obtain ⟨hb, hm⟩ := hw
  cases hp : readTlv x.full with
  | error e =>
    rw [hp] at hm
    simp at hm
  | ok y =>
    obtain ⟨y1, r⟩ := y
    rw [hp] at hm
    simp only [List.isEmpty_iff] at hm
    subst hm
    have hsp := readTlv_split hp
    have hy : y1 = x := by
      cases y1
      cases x
      simp only [List.append_nil] at hsp
      simpa using hsp.symm
    subst hy
    simpa using readTlv_ext s hp

theorem parseOpt_none {α : Type} (t : Tag) (p : Bytes → Except Err (α × Bytes)) {l : Bytes}
    (h : peekTag l ≠ some t) : parseOpt t p l = .ok (none, l) := by
  simp [parseOpt, h]

theorem parseOpt_some {α : Type} (t : Tag) {p : Bytes → Except Err (α × Bytes)} {l : Bytes}
    {v : α} {r : Bytes} (hpk : peekTag l = some t) (hp : p l = .ok (v, r)) :
    parseOpt t p l = .ok (some v, r) := by
  simp [parseOpt, hpk, hp]

theorem parseOpt_inv {α : Type} {t : Tag} {p : Bytes → Except Err (α × Bytes)} {l : Bytes}
    {o : Option α} {r : Bytes} (h : parseOpt t p l = .ok (o, r)) :
    (o = none ∧ r = l ∧ peekTag l ≠ some t) ∨
      (∃ v, o = some v ∧ p l = .ok (v, r) ∧ peekTag l = some t) := by
  unfold parseOpt at h
  by_cases hpk : peekTag l = some t
  · rw [if_pos hpk] at h
    cases hp : p l with
    | error e =>
      rw [hp] at h
      exact Except.noConfusion h
    | ok x =>
      obtain ⟨v, r2⟩ := x
      rw [hp] at h
      simp only [Except.ok.injEq, Prod.mk.injEq] at h
      obtain ⟨ho, hr⟩ := h
      exact .inr ⟨v, ho.symm, by rw [hr], hpk⟩
  · rw [if_neg hpk] at h
    simp only [Except.ok.injEq, Prod.mk.injEq] at h
    obtain ⟨ho, hr⟩ := h
    exact .inl ⟨ho.symm, hr.symm, hpk⟩

theorem parseDefault_absent {α : Type} [DecidableEq α] (t : Tag)
    (p : Bytes → Except Err (α × Bytes)) (dflt : α) {l : Bytes}
    (h : peekTag l ≠ some t) : parseDefault t p dflt l = .ok (dflt, l) := by
  simp [parseDefault, h]

theorem parseDefault_present {α : Type} [DecidableEq α] {t : Tag}
    {p : Bytes → Except Err (α × Bytes)} {dflt : α} {l : Bytes} {v : α} {r : Bytes}
    (hpk : peekTag l = some t) (hp : p l = .ok (v, r)) (hne : v ≠ dflt) :
    parseDefault t p dflt l = .ok (v, r) := by
  simp [parseDefault, hpk, hp, hne]

theorem parseDefault_inv {α : Type} [DecidableEq α] {t : Tag}
    {p : Bytes → Except Err (α × Bytes)} {dflt : α} {l : Bytes} {v : α} {r : Bytes}
    (h : parseDefault t p dflt l = .ok (v, r)) :
    (v = dflt ∧ r = l ∧ peekTag l ≠ some t) ∨
      (p l = .ok (v, r) ∧ v ≠ dflt ∧ peekTag l = some t) := by
  unfold parseDefault at h
  by_cases hpk : peekTag l = some t
  · rw [if_pos hpk] at h
    cases hp : p l with
    | error e =>
      rw [hp] at h
      exact Except.noConfusion h
    | ok x =>
      obtain ⟨v2, r2⟩ := x
      rw [hp] at h
      by_cases hd : v2 = dflt
      · simp only [if_pos hd] at h
        exact Except.noConfusion h
      · simp only [if_neg hd, Except.ok.injEq, Prod.mk.injEq] at h
        obtain ⟨hv, hr⟩ := h
        exact .inr ⟨by rw [hv, hr], hv ▸ hd, hpk⟩
  · rw [if_neg hpk] at h
    simp only [Except.ok.injEq, Prod.mk.injEq] at h
    obtain ⟨hv, hr⟩ := h
    exact .inl ⟨hv.symm, hr.symm, hpk⟩

theorem parseField_enc {α : Type} {t : Tag} {f : Bytes → Except Err α} {c : Bytes} {v : α}
    (h1 : t.cls ≤ 3) (h2 : t.num < 31) (hf : f c = .ok v) (s : Bytes) :
    parseField t f (mkTlv t c ++ s) = .ok (v, s) := by
  simp [parseField, expectTlv_enc h1 h2, hf]

theorem parseField_inv {α : Type} {t : Tag} {f : Bytes → Except Err α} {l : Bytes}
    {v : α} {r : Bytes} (h : parseField t f l = .ok (v, r)) (ht : t.num < 31)
    (hb : byteOk l = true) :
    ∃ c, l = mkTlv t c ++ r ∧ f c = .ok v ∧ byteOk c = true := by
  unfold parseField at h
  split at h
  · exact Except.noConfusion h
  · rename_i c r2 heq
    split at h
    · exact Except.noConfusion h
    · rename_i v2 heq2
      simp only [Except.ok.injEq, Prod.mk.injEq] at h
      obtain ⟨hv, hr⟩ := h
      subst hv
      subst hr
      have hsp := expectTlv_inv heq ht hb
      refine ⟨c, hsp, heq2, ?_⟩
      rw [hsp] at hb
      have hbm := (byteOk_split hb).1
      rw [mkTlv] at hbm
      exact (byteOk_split hbm).2

theorem parseField_ext {α : Type} {t : Tag} {f : Bytes → Except Err α} {l : Bytes}
    {v : α} {r : Bytes} (s : Bytes) (h : parseField t f l = .ok (v, r)) :
    parseField t f (l ++ s) = .ok (v, r ++ s) := by
  unfold parseField at h ⊢
  split at h
  · exact Except.noConfusion h
  · rename_i c r2 heq
    split at h
    · exact Except.noConfusion h
    · rename_i v2 heq2
      simp only [expectTlv_ext s heq, heq2]
      simp only [Except.ok.injEq, Prod.mk.injEq] at h ⊢
      obtain ⟨hv, hr⟩ := h
      subst hr
      exact ⟨hv, rfl⟩

theorem parseExplicit_enc {α : Type} {n : Nat} {p : Bytes → Except Err (α × Bytes)}
    {ic : Bytes} {v : α} (hn : n < 31) (hp : p ic = .ok (v, [])) (s : Bytes) :
    parseExplicit n p (encExplicit n ic ++ s) = .ok (v, s) := by
  have h1 : (tagCtx n).cls ≤ 3 := by simp [tagCtx]
  have h2 : (tagCtx n).num < 31 := by simpa [tagCtx] using hn
  simp [parseExplicit, encExplicit, expectTlv_enc h1 h2, hp]

theorem parseExplicit_inv {α : Type} {n : Nat} {p : Bytes → Except Err (α × Bytes)}
    {l : Bytes} {v : α} {r : Bytes} (h : parseExplicit n p l = .ok (v, r)) (hn : n < 31)
    (hb : byteOk l = true) :
    ∃ c, l = encExplicit n c ++ r ∧ p c = .ok (v, []) ∧ byteOk c = true := by
  unfold parseExplicit at h
  split at h
  · exact Except.noConfusion h
  · rename_i c r2 heq
    split at h
    · exact Except.noConfusion h
    · rename_i v2 c2 heq2
      by_cases hc2 : c2 = []
      · rw [if_pos hc2] at h
        simp only [Except.ok.injEq, Prod.mk.injEq] at h
        obtain ⟨hv, hr⟩ := h
        subst hv
        subst hr
        subst hc2
        have hsp := expectTlv_inv heq (by simpa [tagCtx] using hn) hb
        refine ⟨c, hsp, heq2, ?_⟩
        rw [hsp] at hb
        have hbm := (byteOk_split hb).1
        rw [mkTlv] at hbm
        exact (byteOk_split hbm).2
      · rw [if_neg hc2] at h
        exact Except.noConfusion h

theorem parseExplicit_ext {α : Type} {n : Nat} {p : Bytes → Except Err (α × Bytes)}
    {l : Bytes} {v : α} {r : Bytes} (s : Bytes) (h : parseExplicit n p l = .ok (v, r)) :
    parseExplicit n p (l ++ s) = .ok (v, r ++ s) := by
  unfold parseExplicit at h ⊢
  split at h
  · exact Except.noConfusion h
  · rename_i c r2 heq
    split at h
    · exact Except.noConfusion h
    · rename_i v2 c2 heq2
      simp only [expectTlv_ext s heq, heq2]
      by_cases hc2 : c2 = []
      · rw [if_pos hc2] at h ⊢
        simp only [Except.ok.injEq, Prod.mk.injEq] at h ⊢
        obtain ⟨hv, hr⟩ := h
        subst hr
        exact ⟨hv, rfl⟩
      · rw [if_neg hc2] at h
        exact Except.noConfusion h

/-! ## Content codec lemmas -/

theorem contUInt_enc (bound n : Nat) :
    contUInt bound (encUIntContent n) =
      if n < bound then .ok n else .error .InvalidIntegerEncoding := by
  by_cases h0 : n = 0
  · subst h0
    simp [encUIntContent, contUInt, natFromBE]
  · obtain ⟨hne, hhead, hbytes, hval⟩ := natBE_spec n h0
    by_cases hh : (natBE n).headD 0 < 128
    · simp only [encUIntContent, if_neg h0, if_pos hh]
      cases hE : natBE n with
      | nil => exact absurd hE hne
      | cons b rest =>
        rw [hE] at hhead hval hh
        simp only [List.headD_cons] at hhead hh
        simp only [contUInt]
        rw [if_neg (show ¬128 ≤ b by omega)]
        rw [if_neg (show ¬(b = 0 ∧ rest ≠ [] ∧ rest.headD 0 < 128) by simp [hhead])]
        rw [hval]
    · simp only [encUIntContent, if_neg h0, if_neg hh]
      cases hE : natBE n with
      | nil => exact absurd hE hne
      | cons b rest =>
        rw [hE] at hhead hval hh
        simp only [List.headD_cons] at hhead hh
        simp only [contUInt]
        rw [if_neg (show ¬(128 : Nat) ≤ 0 by norm_num)]
        rw [if_neg (show ¬(True ∧ (b :: rest : Bytes) ≠ [] ∧ (b :: rest).headD 0 < 128) by
          simpa using hh)]
        have hz : natFromBE (0 :: b :: rest) = natFromBE (b :: rest) := by
          rw [natFromBE_cons]
          simp
        rw [hz, hval]

theorem contUInt_inv {bound : Nat} {c : Bytes} {n : Nat}
    (h : contUInt bound c = .ok n) (hb : byteOk c = true) :
    c = encUIntContent n ∧ n < bound := by
  cases c with
  | nil => exact Except.noConfusion h
  | cons b rest =>
    simp only [contUInt] at h
    by_cases h1 : 128 ≤ b
    · rw [if_pos h1] at h
      exact Except.noConfusion h
    · rw [if_neg h1] at h
      by_cases h2 : b = 0 ∧ rest ≠ [] ∧ rest.headD 0 < 128
      · rw [if_pos h2] at h
        exact Except.noConfusion h
      · rw [if_neg h2] at h
        by_cases h3 : natFromBE (b :: rest) < bound
        · rw [if_pos h3] at h
          simp only [Except.ok.injEq] at h
          subst h
          refine ⟨?_, h3⟩
          have hbl : b < 256 := by
            simp only [byteOk, List.all_cons, Bool.and_eq_true, decide_eq_true_eq] at hb
            exact hb.1
          cases hrest : rest with
          | nil =>
            subst hrest
            by_cases hb0 : b = 0
            · subst hb0
              simp [encUIntContent, natFromBE]
            · have hv : natFromBE [b] = b := by simp [natFromBE]
              rw [hv, encUIntContent, if_neg hb0,
                natBE_small (Nat.pos_of_ne_zero hb0) hbl]
              simp only [List.headD_cons, if_pos (show b < 128 by omega)]
          | cons b2 rest2 =>
            subst hrest
            by_cases hb0 : b = 0
            · subst hb0
              have hb2 : 128 ≤ b2 := by
                by_contra hc
                exact h2 ⟨rfl, by simp, by simp only [List.headD_cons]; omega⟩
              have hz : natFromBE (0 :: b2 :: rest2) = natFromBE (b2 :: rest2) := by
                rw [natFromBE_cons]
                simp
              have hbo2 : byteOk (b2 :: rest2) = true := by
                simp only [byteOk, List.all_cons, Bool.and_eq_true] at hb ⊢
                exact hb.2
              have hinv : natBE (natFromBE (b2 :: rest2)) = b2 :: rest2 :=
                natBE_inv (by simp) (by simpa using (show b2 ≠ 0 by omega)) hbo2
              have hpos : natFromBE (b2 :: rest2) ≠ 0 := by
                have := natFromBE_pos (l := b2 :: rest2) (by simp)
                  (by simpa using (show b2 ≠ 0 by omega))
                omega
              rw [hz, encUIntContent, if_neg hpos, hinv]
              simp only [List.headD_cons]
              rw [if_neg (show ¬b2 < 128 by omega)]
            · have hbo : byteOk (b :: b2 :: rest2) = true := hb
              have hinv : natBE (natFromBE (b :: b2 :: rest2)) = b :: b2 :: rest2 :=
                natBE_inv (by simp) (by simpa using hb0) hbo
              have hpos : natFromBE (b :: b2 :: rest2) ≠ 0 := by
                have := natFromBE_pos (l := b :: b2 :: rest2) (by simp) (by simpa using hb0)
                omega
              rw [encUIntContent, if_neg hpos, hinv]
              simp only [List.headD_cons]
              rw [if_pos (show b < 128 by omega)]
        · rw [if_neg h3] at h
          exact Except.noConfusion h

theorem contBool_enc (b : Bool) : contBool [if b then 255 else 0] = .ok b := by
  cases b <;> rfl

theorem contBool_inv {c : Bytes} {b : Bool} (h : contBool c = .ok b) :
    c = [if b then 255 else 0] := by
  unfold contBool at h
  split at h
  · simp only [Except.ok.injEq] at h
    subst h
    rfl
  · simp only [Except.ok.injEq] at h
    subst h
    rfl
  · exact Except.noConfusion h

theorem contOid_enc {o : ObjectIdentifier} (hw : oidWf o = true) : contOid o.data = .ok o := by
  simp only [oidWf, Bool.and_eq_true] at hw
  simp [contOid, hw.1.1, hw.1.2]

theorem contOid_inv {c : Bytes} {o : ObjectIdentifier} (h : contOid c = .ok o)
    (hb : byteOk c = true) : c = o.data ∧ oidWf o = true := by
  unfold contOid at h
  split at h
  · rename_i hcond
    simp only [Except.ok.injEq] at h
    subst h
    simp only [Bool.and_eq_true] at hcond
    exact ⟨rfl, by simp [oidWf, hcond.1, hcond.2, hb]⟩
  · exact Except.noConfusion h

theorem contIA5_enc {s : IA5String} (hw : ia5Wf s = true) : contIA5 s.data = .ok s := by
  have hc : s.data.all (· < 128) = true := hw
  simp [contIA5, hc]

theorem contIA5_inv {c : Bytes} {s : IA5String} (h : contIA5 c = .ok s) :
    c = s.data ∧ ia5Wf s = true := by
  unfold contIA5 at h
  split at h
  · rename_i hcond
    simp only [Except.ok.injEq] at h
    subst h
    exact ⟨rfl, by simpa [ia5Wf] using hcond⟩
  · exact Except.noConfusion h

theorem contTime_enc {g : GeneralizedTime} (hw : gtWf g = true) : contTime g.data = .ok g := by
  simp only [gtWf] at hw
  simp [contTime, hw]

theorem contTime_inv {c : Bytes} {g : GeneralizedTime} (h : contTime c = .ok g) :
    c = g.data ∧ gtWf g = true := by
  unfold contTime at h
  split at h
  · rename_i hcond
    simp only [Except.ok.injEq] at h
    subst h
    exact ⟨rfl, by simpa [gtWf] using hcond⟩
  · exact Except.noConfusion h

theorem contOctet_enc (c : Bytes) : contOctet c = .ok c := rfl

theorem contOctet_inv {c d : Bytes} (h : contOctet c = .ok d) : c = d := by
  simpa [contOctet] using h

/-! ## Field-level lemmas specialized to the schema's tags -/

theorem expectSeq_enc (c s : Bytes) : expectTlv tagSeq (encSeq c ++ s) = .ok (c, s) :=
  expectTlv_enc (by decide) (by decide) c s

theorem expectCtx_enc {n : Nat} (hn : n < 31) (c s : Bytes) :
    expectTlv (tagCtx n) (encExplicit n c ++ s) = .ok (c, s) :=
  expectTlv_enc (by simp [tagCtx]) (by simpa [tagCtx] using hn) c s

theorem readTlv_enc_nil {x : Tlv} (hw : tlvWf x = true) : readTlv x.full = .ok (x, []) := by
  simpa using readTlv_enc hw []

theorem parseUInt_enc {bound n : Nat} (h : n < bound) (s : Bytes) :
    parseField tagInt (contUInt bound) (encUInt n ++ s) = .ok (n, s) :=
  parseField_enc (by decide) (by decide) (by rw [contUInt_enc, if_pos h]) s

theorem parseU8_enc {n : Nat} (h : n < 256) (s : Bytes) :
    parseU8 (encUInt n ++ s) = .ok (n, s) := parseUInt_enc h s

theorem parseU32_enc {n : Nat} (h : n < 2 ^ 32) (s : Bytes) :
    parseU32 (encUInt n ++ s) = .ok (n, s) := parseUInt_enc h s

theorem parseU64_enc {n : Nat} (h : n < 2 ^ 64) (s : Bytes) :
    parseU64 (encUInt n ++ s) = .ok (n, s) := parseUInt_enc h s

theorem parseBool_enc (b : Bool) (s : Bytes) :
    parseBool (encBool b ++ s) = .ok (b, s) :=
  parseField_enc (by decide) (by decide) (contBool_enc b) s

theorem parseOid_enc {o : ObjectIdentifier} (hw : oidWf o = true) (s : Bytes) :
    parseOid (encOid o ++ s) = .ok (o, s) :=
  parseField_enc (by decide) (by decide) (contOid_enc hw) s

theorem parseIA5_enc {x : IA5String} (hw : ia5Wf x = true) (s : Bytes) :
    parseIA5 (encIA5 x ++ s) = .ok (x, s) :=
  parseField_enc (by decide) (by decide) (contIA5_enc hw) s

theorem parseOctet_enc (d s : Bytes) : parseOctet (encOctet d ++ s) = .ok (d, s) :=
  parseField_enc (by decide) (by decide) (contOctet_enc d) s

theorem parseTime_enc {g : GeneralizedTime} (hw : gtWf g = true) (s : Bytes) :
    parseTime (encTime g ++ s) = .ok (g, s) :=
  parseField_enc (by decide) (by decide) (contTime_enc hw) s

theorem parseUInt_inv {bound : Nat} {l : Bytes} {n : Nat} {r : Bytes}
    (h : parseField tagInt (contUInt bound) l = .ok (n, r)) (hb : byteOk l = true) :
    l = encUInt n ++ r ∧ n < bound := by
  obtain ⟨c, hl, hf, hbc⟩ := parseField_inv h (by decide) hb
  obtain ⟨hc, hn⟩ := contUInt_inv hf hbc
  subst hc
  exact ⟨hl, hn⟩

theorem parseBool_inv {l : Bytes} {b : Bool} {r : Bytes}
    (h : parseBool l = .ok (b, r)) (hb : byteOk l = true) : l = encBool b ++ r := by
  obtain ⟨c, hl, hf, hbc⟩ := parseField_inv h (by decide) hb
  rw [contBool_inv hf] at hl
  exact hl

theorem parseOid_inv {l : Bytes} {o : ObjectIdentifier} {r : Bytes}
    (h : parseOid l = .ok (o, r)) (hb : byteOk l = true) :
    l = encOid o ++ r ∧ oidWf o = true := by
  obtain ⟨c, hl, hf, hbc⟩ := parseField_inv h (by decide) hb
  obtain ⟨hc, hw⟩ := contOid_inv hf hbc
  subst hc
  exact ⟨hl, hw⟩

theorem parseIA5_inv {l : Bytes} {x : IA5String} {r : Bytes}
    (h : parseIA5 l = .ok (x, r)) (hb : byteOk l = true) :
    l = encIA5 x ++ r ∧ ia5Wf x = true := by
  obtain ⟨c, hl, hf, hbc⟩ := parseField_inv h (by decide) hb
  obtain ⟨hc, hw⟩ := contIA5_inv hf
  subst hc
  exact ⟨hl, hw⟩

theorem parseOctet_inv {l : Bytes} {d : Bytes} {r : Bytes}
    (h : parseOctet l = .ok (d, r)) (hb : byteOk l = true) :
    l = encOctet d ++ r ∧ byteOk d = true := by
  obtain ⟨c, hl, hf, hbc⟩ := parseField_inv h (by decide) hb
  rw [contOctet_inv hf] at hl hbc
  exact ⟨hl, hbc⟩

theorem parseTime_inv {l : Bytes} {g : GeneralizedTime} {r : Bytes}
    (h : parseTime l = .ok (g, r)) (hb : byteOk l = true) :
    l = encTime g ++ r ∧ gtWf g = true := by
  obtain ⟨c, hl, hf, hbc⟩ := parseField_inv h (by decide) hb
  obtain ⟨hc, hw⟩ := contTime_inv hf
  subst hc
  exact ⟨hl, hw⟩

/-! ## Leading-tag facts of the schema encoders -/

theorem peekTag_encUInt (n : Nat) (s : Bytes) : peekTag (encUInt n ++ s) = some tagInt :=
  peekTag_mkTlv (by decide) (by decide) _ s

theorem peekTag_encBool (b : Bool) (s : Bytes) : peekTag (encBool b ++ s) = some tagBool :=
  peekTag_mkTlv (by decide) (by decide) _ s

theorem peekTag_encOid (o : ObjectIdentifier) (s : Bytes) :
    peekTag (encOid o ++ s) = some tagOid :=
  peekTag_mkTlv (by decide) (by decide) _ s

theorem peekTag_encIA5 (x : IA5String) (s : Bytes) :
    peekTag (encIA5 x ++ s) = some tagIA5 :=
  peekTag_mkTlv (by decide) (by decide) _ s

theorem peekTag_encSeq (c s : Bytes) : peekTag (encSeq c ++ s) = some tagSeq :=
  peekTag_mkTlv (by decide) (by decide) _ s

theorem peekTag_encExplicit {n : Nat} (hn : n < 31) (c s : Bytes) :
    peekTag (encExplicit n c ++ s) = some (tagCtx n) :=
  peekTag_mkTlv (by simp [tagCtx]) (by simpa [tagCtx] using hn) _ s

theorem peekTag_encMessageImprint (m : MessageImprint) (s : Bytes) :
    peekTag (encMessageImprint m ++ s) = some tagSeq :=
  peekTag_encSeq _ s

theorem peekTag_encAccuracy (a : Accuracy) (s : Bytes) :
    peekTag (encAccuracy a ++ s) = some tagSeq :=
  peekTag_encSeq _ s

theorem peekTag_encPKIStatusInfo (x : PKIStatusInfo) (s : Bytes) :
    peekTag (encPKIStatusInfo x ++ s) = some tagSeq :=
  peekTag_encSeq _ s

theorem peekTag_encContentInfo (x : ContentInfo) (s : Bytes) :
    peekTag (encContentInfo x ++ s) = some tagSeq :=
  peekTag_encSeq _ s

theorem peekTag_encTime (g : GeneralizedTime) (s : Bytes) :
    peekTag (encTime g ++ s) = some tagTime :=
  peekTag_mkTlv (by decide) (by decide) _ s

theorem peekTag_encTsa (g : GeneralName) (s : Bytes) :
    peekTag (encTsa g ++ s) = some (tagCtx 0) :=
  peekTag_encExplicit (by norm_num) _ s

theorem peekTag_encExt (x : Tlv) (s : Bytes) :
    peekTag (encExt x ++ s) = some (tagCtx 1) :=
  peekTag_encExplicit (by norm_num) _ s

/-! ## OPTIONAL and DEFAULT field steps over the encoders -/

theorem parseOpt_encOpt {α : Type} {t : Tag} {enc1 : α → Bytes}
    {p : Bytes → Except Err (α × Bytes)} (o : Option α) (rest : Bytes)
    (hsome : ∀ v, o = some v → peekTag (enc1 v ++ rest) = some t ∧
      p (enc1 v ++ rest) = .ok (v, rest))
    (hnone : o = none → peekTag rest ≠ some t) :
    parseOpt t p (encOpt enc1 o ++ rest) = .ok (o, rest) := by
  cases o with
  | none =>
    simp only [encOpt, List.nil_append]
    exact parseOpt_none t p (hnone rfl)
  | some v =>
    obtain ⟨hp1, hp2⟩ := hsome v rfl
    simp only [encOpt]
    exact parseOpt_some t hp1 hp2

theorem parseDefault_encDefault {α : Type} [DecidableEq α] {t : Tag} {enc1 : α → Bytes}
    {p : Bytes → Except Err (α × Bytes)} (dflt v : α) (rest : Bytes)
    (hpres : v ≠ dflt → peekTag (enc1 v ++ rest) = some t ∧
      p (enc1 v ++ rest) = .ok (v, rest))
    (habs : peekTag rest ≠ some t) :
    parseDefault t p dflt (encDefault enc1 dflt v ++ rest) = .ok (v, rest) := by
  by_cases hv : v = dflt
  · subst hv
    simp only [encDefault, if_pos rfl, List.nil_append]
    exact parseDefault_absent t p _ habs
  · obtain ⟨hp1, hp2⟩ := hpres hv
    simp only [encDefault, if_neg hv]
    exact parseDefault_present hp1 hp2 hv

theorem peekTag_encUInt0 (n : Nat) : peekTag (encUInt n) = some tagInt := by
  simpa using peekTag_encUInt n []

theorem peekTag_encBool0 (b : Bool) : peekTag (encBool b) = some tagBool := by
  simpa using peekTag_encBool b []

theorem peekTag_encOid0 (o : ObjectIdentifier) : peekTag (encOid o) = some tagOid := by
  simpa using peekTag_encOid o []

theorem peekTag_encIA50 (x : IA5String) : peekTag (encIA5 x) = some tagIA5 := by
  simpa using peekTag_encIA5 x []

theorem peekTag_encAccuracy0 (a : Accuracy) : peekTag (encAccuracy a) = some tagSeq := by
  simpa using peekTag_encAccuracy a []

theorem peekTag_encContentInfo0 (x : ContentInfo) : peekTag (encContentInfo x) = some tagSeq := by
  simpa using peekTag_encContentInfo x []

theorem peekTag_encTsa0 (g : GeneralName) : peekTag (encTsa g) = some (tagCtx 0) := by
  simpa using peekTag_encTsa g []

theorem peekTag_encExt0 (x : Tlv) : peekTag (encExt x) = some (tagCtx 1) := by
  simpa using peekTag_encExt x []

/-! ## Round-trip (decode after encode) for the schema structures -/

theorem parseAlgorithmIdentifier_enc {a : AlgorithmIdentifier} (hw : algWf a = true)
    (s : Bytes) :
    parseAlgorithmIdentifier (encAlgorithmIdentifier a ++ s) = .ok (a, s) := by
  obtain ⟨oid, par⟩ := a
  simp only [algWf, Bool.and_eq_true] at hw
  obtain ⟨h1, h2⟩ := hw
  have st1 := parseOid_enc h1 (encTlv par)
  have st2 : readTlv (encTlv par) = .ok (par, []) := readTlv_enc_nil h2
  simp [encAlgorithmIdentifier, parseAlgorithmIdentifier, expectSeq_enc, st1, st2]

theorem parseMessageImprint_enc {m : MessageImprint} (hw : impWf m = true) (s : Bytes) :
    parseMessageImprint (encMessageImprint m ++ s) = .ok (m, s) := by
  obtain ⟨alg, msg⟩ := m
  simp only [impWf, Bool.and_eq_true] at hw
  obtain ⟨h1, h2⟩ := hw
  have st1 := parseAlgorithmIdentifier_enc h1 (encOctet msg)
  have st2 : parseOctet (encOctet msg) = .ok (msg, []) := by
    simpa using parseOctet_enc msg []
  simp [encMessageImprint, parseMessageImprint, expectSeq_enc, st1, st2]

theorem parseAccuracy_enc {a : Accuracy} (hw : accWf a = true) (hp : accPacked a = true)
    (s : Bytes) : parseAccuracy (encAccuracy a ++ s) = .ok (a, s) := by
  obtain ⟨se, mi, mu⟩ := a
  simp only [accWf, Bool.and_eq_true, decide_eq_true_eq] at hw
  obtain ⟨⟨h1, h2⟩, h3⟩ := hw
  simp only [accPacked, decide_eq_true_eq] at hp
  have st3 : parseOpt tagInt parseU32 (encOpt encUInt mu) = .ok (mu, []) := by
    have := parseOpt_encOpt (t := tagInt) (p := parseU32) mu []
      (fun v hv => ⟨peekTag_encUInt v [], by
        rw [hv] at h3
        simp only [optWf, decide_eq_true_eq] at h3
        exact parseU32_enc h3 []⟩)
      (fun _ => by simp [peekTag_nil])
    simpa using this
  have st2 : parseOpt tagInt parseU32 (encOpt encUInt mi ++ encOpt encUInt mu) =
      .ok (mi, encOpt encUInt mu) := by
    refine parseOpt_encOpt mi _ ?_ ?_
    · intro v hv
      refine ⟨peekTag_encUInt v _, ?_⟩
      rw [hv] at h2
      simp only [optWf, decide_eq_true_eq] at h2
      exact parseU32_enc h2 _
    · intro hno
      rcases mu with _ | u
      · simp [encOpt, peekTag_nil]
      · rw [hno] at hp
        simp at hp
  have st1 : parseOpt tagInt parseU32
      (encOpt encUInt se ++ (encOpt encUInt mi ++ encOpt encUInt mu)) =
      .ok (se, encOpt encUInt mi ++ encOpt encUInt mu) := by
    refine parseOpt_encOpt se _ ?_ ?_
    · intro v hv
      refine ⟨peekTag_encUInt v _, ?_⟩
      rw [hv] at h1
      simp only [optWf, decide_eq_true_eq] at h1
      exact parseU32_enc h1 _
    · intro hno
      rcases mi with _ | m
      · rcases mu with _ | u
        · simp [encOpt, peekTag_nil]
        · rw [hno] at hp
          simp at hp
      · rw [hno] at hp
        simp at hp
  simp [encAccuracy, parseAccuracy, List.append_assoc, expectSeq_enc, st1, st2, st3]

theorem parseGeneralName_enc {g : GeneralName} (hw : gnWf g = true) (s : Bytes) :
    parseGeneralName (encGeneralName g ++ s) = .ok (g, s) := by
  cases g with
  | OtherName x =>
    simp only [gnWf] at hw
    have hex := parseExplicit_enc (n := 0) (by norm_num) (readTlv_enc_nil hw) s
    simp [encGeneralName, parseGeneralName, encTlv,
      peekTag_encExplicit (show (0:Nat) < 31 by norm_num), hex, tagCtx]
  | DNSName x =>
    simp only [gnWf] at hw
    have hin : parseIA5 (encIA5 x) = .ok (x, []) := by simpa using parseIA5_enc hw []
    have hex := parseExplicit_enc (n := 2) (by norm_num) hin s
    simp [encGeneralName, parseGeneralName,
      peekTag_encExplicit (show (2:Nat) < 31 by norm_num), hex, tagCtx]
  | UniformResourceIdentifier x =>
    simp only [gnWf] at hw
    have hin : parseIA5 (encIA5 x) = .ok (x, []) := by simpa using parseIA5_enc hw []
    have hex := parseExplicit_enc (n := 6) (by norm_num) hin s
    simp [encGeneralName, parseGeneralName,
      peekTag_encExplicit (show (6:Nat) < 31 by norm_num), hex, tagCtx]
  | IPAddress d =>
    have hin : parseOctet (encOctet d) = .ok (d, []) := by simpa using parseOctet_enc d []
    have hex := parseExplicit_enc (n := 7) (by norm_num) hin s
    simp [encGeneralName, parseGeneralName,
      peekTag_encExplicit (show (7:Nat) < 31 by norm_num), hex, tagCtx]
  | RegisteredID o =>
    simp only [gnWf] at hw
    have hin : parseOid (encOid o) = .ok (o, []) := by simpa using parseOid_enc hw []
    have hex := parseExplicit_enc (n := 8) (by norm_num) hin s
    simp [encGeneralName, parseGeneralName,
      peekTag_encExplicit (show (8:Nat) < 31 by norm_num), hex, tagCtx]

theorem parsePKIStatusInfo_enc {x : PKIStatusInfo} (hw : statusWf x = true) (s : Bytes) :
    parsePKIStatusInfo (encPKIStatusInfo x ++ s) = .ok (x, s) := by
  obtain ⟨st, ss, fi⟩ := x
  simp only [statusWf, Bool.and_eq_true, decide_eq_true_eq] at hw
  obtain ⟨⟨h1, h2⟩, h3⟩ := hw
  have st1 := parseU8_enc h1 (encOpt encIA5 ss ++ encOpt encUInt fi)
  have st2 : parseOpt tagIA5 parseIA5 (encOpt encIA5 ss ++ encOpt encUInt fi) =
      .ok (ss, encOpt encUInt fi) := by
    refine parseOpt_encOpt ss _ ?_ ?_
    · intro v hv
      refine ⟨peekTag_encIA5 v _, ?_⟩
      rw [hv] at h2
      simp only [optWf] at h2
      exact parseIA5_enc h2 _
    · intro hno
      rcases fi with _ | f
      · simp [encOpt, peekTag_nil]
      · simp [encOpt, peekTag_encUInt0, tagInt, tagIA5]
  have st3 : parseOpt tagInt parseU8 (encOpt encUInt fi) = .ok (fi, []) := by
    have := parseOpt_encOpt (t := tagInt) (p := parseU8) fi []
      (fun v hv => ⟨peekTag_encUInt v [], by
        rw [hv] at h3
        simp only [optWf, decide_eq_true_eq] at h3
        exact parseU8_enc h3 []⟩)
      (fun _ => by simp [peekTag_nil])
    simpa using this
  simp [encPKIStatusInfo, parsePKIStatusInfo, List.append_assoc, expectSeq_enc, st1, st2, st3]

theorem parseContentInfo_enc {x : ContentInfo} (hw : ciWf x = true) (s : Bytes) :
    parseContentInfo (encContentInfo x ++ s) = .ok (x, s) := by
  obtain ⟨ct, cn⟩ := x
  simp only [ciWf, Bool.and_eq_true] at hw
  obtain ⟨h1, h2⟩ := hw
  have st1 := parseOid_enc h1 (encExplicit 0 (encTlv cn))
  have st2 : parseExplicit 0 readTlv (encExplicit 0 (encTlv cn)) = .ok (cn, []) := by
    simpa [encTlv] using parseExplicit_enc (n := 0) (by norm_num) (readTlv_enc_nil h2) []
  simp [encContentInfo, parseContentInfo, expectSeq_enc, st1, st2]

theorem parseTimeStampReq_enc {q : TimeStampReq} (hw : reqWf q = true) (s : Bytes) :
    parseTimeStampReq (encTimeStampReq q ++ s) = .ok (q, s) := by
  obtain ⟨ver, imp, pol, non, cert⟩ := q
  simp only [reqWf, Bool.and_eq_true, decide_eq_true_eq] at hw
  obtain ⟨⟨⟨hver, himp⟩, hpol⟩, hnon⟩ := hw
  have st5 : parseDefault tagBool parseBool false (encDefault encBool false cert) =
      .ok (cert, []) := by
    have := parseDefault_encDefault (t := tagBool) (p := parseBool) false cert []
      (fun _ => ⟨peekTag_encBool cert [], parseBool_enc cert []⟩)
      (by simp [peekTag_nil])
    simpa using this
  have st4 : parseOpt tagInt parseU64
      (encOpt encUInt non ++ encDefault encBool false cert) =
      .ok (non, encDefault encBool false cert) := by
    refine parseOpt_encOpt non _ ?_ ?_
    · intro v hv
      refine ⟨peekTag_encUInt v _, ?_⟩
      rw [hv] at hnon
      simp only [optWf, decide_eq_true_eq] at hnon
      exact parseU64_enc hnon _
    · intro _
      cases cert <;>
        simp [encDefault, peekTag_nil, peekTag_encBool0, tagBool, tagInt]
  have st3 : parseOpt tagOid parseOid
      (encOpt encOid pol ++ (encOpt encUInt non ++ encDefault encBool false cert)) =
      .ok (pol, encOpt encUInt non ++ encDefault encBool false cert) := by
    refine parseOpt_encOpt pol _ ?_ ?_
    · intro v hv
      refine ⟨peekTag_encOid v _, ?_⟩
      rw [hv] at hpol
      simp only [optWf] at hpol
      exact parseOid_enc hpol _
    · intro _
      rcases non with _ | nv <;> cases cert <;>
        simp [encOpt, encDefault, peekTag_nil, peekTag_encBool0, peekTag_encUInt,
          peekTag_encUInt0, tagBool, tagInt, tagOid]
  have st2 := parseMessageImprint_enc himp
    (encOpt encOid pol ++ (encOpt encUInt non ++ encDefault encBool false cert))
  have st1 := parseU8_enc hver
    (encMessageImprint imp ++ (encOpt encOid pol ++ (encOpt encUInt non ++
      encDefault encBool false cert)))
  simp [encTimeStampReq, parseTimeStampReq, List.append_assoc, expectSeq_enc,
    st1, st2, st3, st4, st5]

theorem parseTimeStampResp_enc {x : TimeStampResp} (hw : respWf x = true) (s : Bytes) :
    parseTimeStampResp (encTimeStampResp x ++ s) = .ok (x, s) := by
  obtain ⟨st, tok⟩ := x
  simp only [respWf, Bool.and_eq_true] at hw
  obtain ⟨h1, h2⟩ := hw
  have st1 := parsePKIStatusInfo_enc h1 (encOpt encContentInfo tok)
  have st2 : parseOpt tagSeq parseContentInfo (encOpt encContentInfo tok) =
      .ok (tok, []) := by
    have := parseOpt_encOpt (t := tagSeq) (p := parseContentInfo) tok []
      (fun v hv => ⟨peekTag_encContentInfo v [], by
        rw [hv] at h2
        simp only [optWf] at h2
        exact parseContentInfo_enc h2 []⟩)
      (fun _ => by simp [peekTag_nil])
    simpa using this
  simp [encTimeStampResp, parseTimeStampResp, expectSeq_enc, st1, st2]

theorem parseTSTInfo_enc {x : TSTInfo} (hw : tstWf x = true)
    (hpk : optWf accPacked x.accuracy = true) (s : Bytes) :
    parseTSTInfo (encTSTInfo x ++ s) = .ok (x, s) := by
  obtain ⟨ver, pol, imp, ser, gt, acc, ord, non, tsa, ext⟩ := x
  simp only [tstWf, Bool.and_eq_true, decide_eq_true_eq] at hw
  obtain ⟨⟨⟨⟨⟨⟨⟨⟨hver, hpol⟩, himp⟩, hser⟩, hgt⟩, hacc⟩, hnon⟩, htsa⟩, hext⟩ := hw
  simp only [optWf] at hpk
  have st10 : parseOpt (tagCtx 1) (parseExplicit 1 readTlv) (encOpt encExt ext) =
      .ok (ext, []) := by
    have := parseOpt_encOpt (t := tagCtx 1) (p := parseExplicit 1 readTlv) ext []
      (fun v hv => ⟨peekTag_encExt v [], by
        rw [hv] at hext
        simp only [optWf] at hext
        exact parseExplicit_enc (n := 1) (by norm_num) (readTlv_enc_nil hext) []⟩)
      (fun _ => by simp [peekTag_nil])
    simpa using this
  have st9 : parseOpt (tagCtx 0) (parseExplicit 0 parseGeneralName)
      (encOpt encTsa tsa ++ encOpt encExt ext) =
      .ok (tsa, encOpt encExt ext) := by
    refine parseOpt_encOpt tsa _ ?_ ?_
    · intro v hv
      refine ⟨peekTag_encTsa v _, ?_⟩
      rw [hv] at htsa
      simp only [optWf] at htsa
      have hin : parseGeneralName (encGeneralName v) = .ok (v, []) := by
        simpa using parseGeneralName_enc htsa []
      exact parseExplicit_enc (n := 0) (by norm_num) hin _
    · intro _
      rcases ext with _ | e <;>
        simp [encOpt, peekTag_nil, peekTag_encExt0, tagCtx]
  have st8 : parseOpt tagInt parseU64
      (encOpt encUInt non ++ (encOpt encTsa tsa ++ encOpt encExt ext)) =
      .ok (non, encOpt encTsa tsa ++ encOpt encExt ext) := by
    refine parseOpt_encOpt non _ ?_ ?_
    · intro v hv
      refine ⟨peekTag_encUInt v _, ?_⟩
      rw [hv] at hnon
      simp only [optWf, decide_eq_true_eq] at hnon
      exact parseU64_enc hnon _
    · intro _
      rcases tsa with _ | g <;> rcases ext with _ | e <;>
        simp [encOpt, peekTag_nil, peekTag_encTsa, peekTag_encTsa0, peekTag_encExt0,
          tagCtx, tagInt]
  have st7 : parseDefault tagBool parseBool false
      (encDefault encBool false ord ++
        (encOpt encUInt non ++ (encOpt encTsa tsa ++ encOpt encExt ext))) =
      .ok (ord, encOpt encUInt non ++ (encOpt encTsa tsa ++ encOpt encExt ext)) := by
    refine parseDefault_encDefault false ord _ ?_ ?_
    · intro _
      exact ⟨peekTag_encBool ord _, parseBool_enc ord _⟩
    · rcases non with _ | nv <;> rcases tsa with _ | g <;> rcases ext with _ | e <;>
        simp [encOpt, peekTag_nil, peekTag_encUInt, peekTag_encUInt0, peekTag_encTsa,
          peekTag_encTsa0, peekTag_encExt0, tagCtx, tagInt, tagBool]
  have st6 : parseOpt tagSeq parseAccuracy
      (encOpt encAccuracy acc ++ (encDefault encBool false ord ++
        (encOpt encUInt non ++ (encOpt encTsa tsa ++ encOpt encExt ext)))) =
      .ok (acc, encDefault encBool false ord ++
        (encOpt encUInt non ++ (encOpt encTsa tsa ++ encOpt encExt ext))) := by
    refine parseOpt_encOpt acc _ ?_ ?_
    · intro v hv
      refine ⟨peekTag_encAccuracy v _, ?_⟩
      rw [hv] at hacc hpk
      simp only [optWf] at hacc
      exact parseAccuracy_enc hacc hpk _
    · intro _
      cases ord <;> rcases non with _ | nv <;> rcases tsa with _ | g <;>
        rcases ext with _ | e <;>
        simp [encOpt, encDefault, peekTag_nil, peekTag_encUInt, peekTag_encUInt0,
          peekTag_encBool, peekTag_encBool0, peekTag_encTsa, peekTag_encTsa0,
          peekTag_encExt0, tagCtx, tagInt, tagBool, tagSeq]
  have st5 := parseTime_enc hgt
    (encOpt encAccuracy acc ++ (encDefault encBool false ord ++
      (encOpt encUInt non ++ (encOpt encTsa tsa ++ encOpt encExt ext))))
  have st4 := parseU64_enc hser
    (encTime gt ++ (encOpt encAccuracy acc ++ (encDefault encBool false ord ++
      (encOpt encUInt non ++ (encOpt encTsa tsa ++ encOpt encExt ext)))))
  have st3 := parseMessageImprint_enc himp
    (encUInt ser ++ (encTime gt ++ (encOpt encAccuracy acc ++
      (encDefault encBool false ord ++ (encOpt encUInt non ++
        (encOpt encTsa tsa ++ encOpt encExt ext))))))
  have st2 : parseOpt tagOid parseOid
      (encOpt encOid pol ++ (encMessageImprint imp ++ (encUInt ser ++ (encTime gt ++
        (encOpt encAccuracy acc ++ (encDefault encBool false ord ++
          (encOpt encUInt non ++ (encOpt encTsa tsa ++ encOpt encExt ext)))))))) =
      .ok (pol, encMessageImprint imp ++ (encUInt ser ++ (encTime gt ++
        (encOpt encAccuracy acc ++ (encDefault encBool false ord ++
          (encOpt encUInt non ++ (encOpt encTsa tsa ++ encOpt encExt ext))))))) := by
    refine parseOpt_encOpt pol _ ?_ ?_
    · intro v hv
      refine ⟨peekTag_encOid v _, ?_⟩
      rw [hv] at hpol
      simp only [optWf] at hpol
      exact parseOid_enc hpol _
    · intro _
      simp [peekTag_encMessageImprint, tagSeq, tagOid]
  have st1 := parseU8_enc hver
    (encOpt encOid pol ++ (encMessageImprint imp ++ (encUInt ser ++ (encTime gt ++
      (encOpt encAccuracy acc ++ (encDefault encBool false ord ++
        (encOpt encUInt non ++ (encOpt encTsa tsa ++ encOpt encExt ext))))))))
  simp [encTSTInfo, parseTSTInfo, List.append_assoc, expectSeq_enc,
    st1, st2, st3, st4, st5, st6, st7, st8, st9, st10]

/-! ## Canonicality (encode after decode) for the schema structures -/

theorem parseOptField_inv {α : Type} {t : Tag} {p : Bytes → Except Err (α × Bytes)}
    {enc1 : α → Bytes} {w : α → Bool} {l : Bytes} {o : Option α} {r : Bytes}
    (h : parseOpt t p l = .ok (o, r)) (hb : byteOk l = true)
    (hinv : ∀ {v : α} {rr : Bytes}, p l = .ok (v, rr) → byteOk l = true →
      l = enc1 v ++ rr ∧ w v = true) :
    l = encOpt enc1 o ++ r ∧ optWf w o = true ∧
      (∀ v, o = some v → peekTag l = some t) ∧
      (o = none → peekTag l ≠ some t ∧ r = l) := by
  rcases parseOpt_inv h with ⟨ho, hr, hpk⟩ | ⟨v, ho, hp, hpk⟩
  · subst ho
    subst hr
    exact ⟨by simp [encOpt], by simp [optWf], by simp, fun _ => ⟨hpk, rfl⟩⟩
  · subst ho
    obtain ⟨hl, hwv⟩ := hinv hp hb
    refine ⟨by simpa [encOpt] using hl, by simpa [optWf] using hwv, fun v2 hv2 => hpk, ?_⟩
    intro hno
    exact absurd hno (by simp)

theorem parseDefaultField_inv {α : Type} [DecidableEq α] {t : Tag}
    {p : Bytes → Except Err (α × Bytes)} {enc1 : α → Bytes} {l : Bytes}
    {dflt v : α} {r : Bytes}
    (h : parseDefault t p dflt l = .ok (v, r)) (hb : byteOk l = true)
    (hinv : ∀ {u : α} {rr : Bytes}, p l = .ok (u, rr) → byteOk l = true →
      l = enc1 u ++ rr) :
    l = encDefault enc1 dflt v ++ r := by
  rcases parseDefault_inv h with ⟨hv, hr, hpk⟩ | ⟨hp, hne, hpk⟩
  · subst hv
    subst hr
    simp [encDefault]
  · rw [encDefault, if_neg hne]
    exact hinv hp hb

theorem parseAlgorithmIdentifier_inv {l : Bytes} {a : AlgorithmIdentifier} {r : Bytes}
    (h : parseAlgorithmIdentifier l = .ok (a, r)) (hb : byteOk l = true) :
    l = encAlgorithmIdentifier a ++ r ∧ algWf a = true := by
  unfold parseAlgorithmIdentifier at h
  split at h
  · exact Except.noConfusion h
  · rename_i c r2 heq
    split at h
    · exact Except.noConfusion h
    · rename_i oid c1 heq2
      split at h
      · exact Except.noConfusion h
      · rename_i par c2 heq3
        by_cases hc2 : c2 = []
        · rw [if_pos hc2] at h
          simp only [Except.ok.injEq, Prod.mk.injEq] at h
          obtain ⟨ha, hr⟩ := h
          subst hr
          subst hc2
          rw [← ha]
          have hl := expectTlv_inv heq (by decide) hb
          have hbc : byteOk c = true := by
            rw [hl] at hb
            have h1 := (byteOk_split hb).1
            rw [mkTlv] at h1
            exact (byteOk_split h1).2
          obtain ⟨hc1eq, hoidwf⟩ := parseOid_inv heq2 hbc
          have hbc1 : byteOk c1 = true := by
            rw [hc1eq] at hbc
            exact (byteOk_split hbc).2
          have htlv := readTlv_wf heq3 hbc1
          have hc1sp := readTlv_split heq3
          constructor
          · rw [hl, hc1eq, hc1sp]
            simp [encAlgorithmIdentifier, encSeq, encTlv]
          · simp [algWf, hoidwf, htlv]
        · rw [if_neg hc2] at h
          exact Except.noConfusion h

theorem parseMessageImprint_inv {l : Bytes} {m : MessageImprint} {r : Bytes}
    (h : parseMessageImprint l = .ok (m, r)) (hb : byteOk l = true) :
    l = encMessageImprint m ++ r ∧ impWf m = true := by
  unfold parseMessageImprint at h
  split at h
  · exact Except.noConfusion h
  · rename_i c r2 heq
    split at h
    · exact Except.noConfusion h
    · rename_i alg c1 heq2
      split at h
      · exact Except.noConfusion h
      · rename_i msg c2 heq3
        by_cases hc2 : c2 = []
        · rw [if_pos hc2] at h
          simp only [Except.ok.injEq, Prod.mk.injEq] at h
          obtain ⟨hm, hr⟩ := h
          subst hr
          subst hc2
          rw [← hm]
          have hl := expectTlv_inv heq (by decide) hb
          have hbc : byteOk c = true := by
            rw [hl] at hb
            have h1 := (byteOk_split hb).1
            rw [mkTlv] at h1
            exact (byteOk_split h1).2
          obtain ⟨hc1eq, halgwf⟩ := parseAlgorithmIdentifier_inv heq2 hbc
          have hbc1 : byteOk c1 = true := by
            rw [hc1eq] at hbc
            exact (byteOk_split hbc).2
          obtain ⟨hc2eq, hmsg⟩ := parseOctet_inv heq3 hbc1
          constructor
          · rw [hl, hc1eq, hc2eq]
            simp [encMessageImprint, encSeq]
          · simp [impWf, halgwf, hmsg]
        · rw [if_neg hc2] at h
          exact Except.noConfusion h

theorem parseAccuracy_inv {l : Bytes} {a : Accuracy} {r : Bytes}
    (h : parseAccuracy l = .ok (a, r)) (hb : byteOk l = true) :
    l = encAccuracy a ++ r ∧ accWf a = true ∧ accPacked a = true := by
  unfold parseAccuracy at h
  split at h
  · exact Except.noConfusion h
  · rename_i c r2 heq
    split at h
    · exact Except.noConfusion h
    · rename_i se c1 heq1
      split at h
      · exact Except.noConfusion h
      · rename_i mi c2 heq2
        split at h
        · exact Except.noConfusion h
        · rename_i mu c3 heq3
          by_cases hc3 : c3 = []
          · rw [if_pos hc3] at h
            simp only [Except.ok.injEq, Prod.mk.injEq] at h
            obtain ⟨ha, hr⟩ := h
            subst hr
            subst hc3
            rw [← ha]
            have hl := expectTlv_inv heq (by decide) hb
            have hbc : byteOk c = true := by
              rw [hl] at hb
              have h1 := (byteOk_split hb).1
              rw [mkTlv] at h1
              exact (byteOk_split h1).2
            obtain ⟨hceq, hw1, hpk1s, hpk1n⟩ := parseOptField_inv
              (w := fun n => decide (n < 2 ^ 32)) heq1 hbc
              (fun hp hbb => by
                obtain ⟨x, y⟩ := parseUInt_inv hp hbb
                exact ⟨x, by simpa using y⟩)
            have hbc1 : byteOk c1 = true := by
              rw [hceq] at hbc
              exact (byteOk_split hbc).2
            obtain ⟨hc1eq, hw2, hpk2s, hpk2n⟩ := parseOptField_inv
              (w := fun n => decide (n < 2 ^ 32)) heq2 hbc1
              (fun hp hbb => by
                obtain ⟨x, y⟩ := parseUInt_inv hp hbb
                exact ⟨x, by simpa using y⟩)
            have hbc2 : byteOk c2 = true := by
              rw [hc1eq] at hbc1
              exact (byteOk_split hbc1).2
            obtain ⟨hc2eq, hw3, hpk3s, hpk3n⟩ := parseOptField_inv
              (w := fun n => decide (n < 2 ^ 32)) heq3 hbc2
              (fun hp hbb => by
                obtain ⟨x, y⟩ := parseUInt_inv hp hbb
                exact ⟨x, by simpa using y⟩)
            refine ⟨?_, ?_, ?_⟩
            · rw [hl, hceq, hc1eq, hc2eq]
              simp [encAccuracy, encSeq, List.append_assoc]
            · simp only [accWf, Bool.and_eq_true]
              exact ⟨⟨by simpa using hw1, by simpa using hw2⟩, by simpa using hw3⟩
            · simp only [accPacked, decide_eq_true_eq]
              constructor
              · intro hmi
                rcases hse : se with _ | sv
                · obtain ⟨hpkc, hrc⟩ := hpk1n hse
                  rcases hmi2 : mi with _ | mv
                  · rw [hmi2] at hmi
                    simp at hmi
                  · have := hpk2s mv hmi2
                    rw [hse] at hceq
                    simp only [encOpt, List.nil_append] at hceq
                    rw [← hceq] at this
                    exact absurd this hpkc
                · simp
              · intro hmu
                rcases hmi2 : mi with _ | mv
                · obtain ⟨hpkc, hrc⟩ := hpk2n hmi2
                  rcases hmu2 : mu with _ | uv
                  · rw [hmu2] at hmu
                    simp at hmu
                  · have := hpk3s uv hmu2
                    rw [hmi2] at hc1eq
                    simp only [encOpt, List.nil_append] at hc1eq
                    rw [← hc1eq] at this
                    exact absurd this hpkc
                · simp
          · rw [if_neg hc3] at h
            exact Except.noConfusion h

theorem parseGeneralName_inv {l : Bytes} {g : GeneralName} {r : Bytes}
    (h : parseGeneralName l = .ok (g, r)) (hb : byteOk l = true) :
    l = encGeneralName g ++ r ∧ gnWf g = true := by
  unfold parseGeneralName at h
  split at h
  · exact Except.noConfusion h
  · rename_i t heq
    by_cases h0 : t = tagCtx 0
    · rw [if_pos h0] at h
      split at h
      · exact Except.noConfusion h
      · rename_i v r2 heq2
        simp only [Except.ok.injEq, Prod.mk.injEq] at h
        obtain ⟨hg, hr⟩ := h
        subst hr
        rw [← hg]
        obtain ⟨c, hl, hp, hbc⟩ := parseExplicit_inv heq2 (by norm_num) hb
        have hsp := readTlv_split hp
        have hwf := readTlv_wf hp hbc
        simp only [List.append_nil] at hsp
        subst hsp
        exact ⟨hl, hwf⟩
    · rw [if_neg h0] at h
      by_cases h2 : t = tagCtx 2
      · rw [if_pos h2] at h
        split at h
        · exact Except.noConfusion h
        · rename_i v r2 heq2
          simp only [Except.ok.injEq, Prod.mk.injEq] at h
          obtain ⟨hg, hr⟩ := h
          subst hr
          rw [← hg]
          obtain ⟨c, hl, hp, hbc⟩ := parseExplicit_inv heq2 (by norm_num) hb
          obtain ⟨hc, hw⟩ := parseIA5_inv hp hbc
          simp only [List.append_nil] at hc
          subst hc
          exact ⟨hl, hw⟩
      · rw [if_neg h2] at h
        by_cases h6 : t = tagCtx 6
        · rw [if_pos h6] at h
          split at h
          · exact Except.noConfusion h
          · rename_i v r2 heq2
            simp only [Except.ok.injEq, Prod.mk.injEq] at h
            obtain ⟨hg, hr⟩ := h
            subst hr
            rw [← hg]
            obtain ⟨c, hl, hp, hbc⟩ := parseExplicit_inv heq2 (by norm_num) hb
            obtain ⟨hc, hw⟩ := parseIA5_inv hp hbc
            simp only [List.append_nil] at hc
            subst hc
            exact ⟨hl, hw⟩
        · rw [if_neg h6] at h
          by_cases h7 : t = tagCtx 7
          · rw [if_pos h7] at h
            split at h
            · exact Except.noConfusion h
            · rename_i v r2 heq2
              simp only [Except.ok.injEq, Prod.mk.injEq] at h
              obtain ⟨hg, hr⟩ := h
              subst hr
              rw [← hg]
              obtain ⟨c, hl, hp, hbc⟩ := parseExplicit_inv heq2 (by norm_num) hb
              obtain ⟨hc, hw⟩ := parseOctet_inv hp hbc
              simp only [List.append_nil] at hc
              subst hc
              exact ⟨hl, hw⟩
          · rw [if_neg h7] at h
            by_cases h8 : t = tagCtx 8
            · rw [if_pos h8] at h
              split at h
              · exact Except.noConfusion h
              · rename_i v r2 heq2
                simp only [Except.ok.injEq, Prod.mk.injEq] at h
                obtain ⟨hg, hr⟩ := h
                subst hr
                rw [← hg]
                obtain ⟨c, hl, hp, hbc⟩ := parseExplicit_inv heq2 (by norm_num) hb
                obtain ⟨hc, hw⟩ := parseOid_inv hp hbc
                simp only [List.append_nil] at hc
                subst hc
                exact ⟨hl, hw⟩
            · rw [if_neg h8] at h
              exact Except.noConfusion h

theorem parseTsaField_inv {l : Bytes} {v : GeneralName} {rr : Bytes}
    (h : parseExplicit 0 parseGeneralName l = .ok (v, rr)) (hb : byteOk l = true) :
    l = encTsa v ++ rr ∧ gnWf v = true := by
  obtain ⟨c, hl, hp, hbc⟩ := parseExplicit_inv h (by norm_num) hb
  obtain ⟨hc, hw⟩ := parseGeneralName_inv hp hbc
  simp only [List.append_nil] at hc
  subst hc
  exact ⟨hl, hw⟩

theorem parseExtField_inv {l : Bytes} {v : Tlv} {rr : Bytes}
    (h : parseExplicit 1 readTlv l = .ok (v, rr)) (hb : byteOk l = true) :
    l = encExt v ++ rr ∧ tlvWf v = true := by
  obtain ⟨c, hl, hp, hbc⟩ := parseExplicit_inv h (by norm_num) hb
  have hsp := readTlv_split hp
  have hw := readTlv_wf hp hbc
  simp only [List.append_nil] at hsp
  subst hsp
  exact ⟨hl, hw⟩

theorem parseTimeStampReq_inv {l : Bytes} {q : TimeStampReq} {r : Bytes}
    (h : parseTimeStampReq l = .ok (q, r)) (hb : byteOk l = true) :
    l = encTimeStampReq q ++ r ∧ reqWf q = true := by
  unfold parseTimeStampReq at h
  split at h
  · exact Except.noConfusion h
  · rename_i c r2 heq
    split at h
    · exact Except.noConfusion h
    · rename_i ver c1 heq1
      split at h
      · exact Except.noConfusion h
      · rename_i imp c2 heq2
        split at h
        · exact Except.noConfusion h
        · rename_i pol c3 heq3
          split at h
          · exact Except.noConfusion h
          · rename_i non c4 heq4
            split at h
            · exact Except.noConfusion h
            · rename_i cert c5 heq5
              by_cases hc5 : c5 = []
              · rw [if_pos hc5] at h
                simp only [Except.ok.injEq, Prod.mk.injEq] at h
                obtain ⟨hq, hr⟩ := h
                subst hr
                subst hc5
                rw [← hq]
                have hl := expectTlv_inv heq (by decide) hb
                have hbc : byteOk c = true := by
                  rw [hl] at hb
                  have h1 := (byteOk_split hb).1
                  rw [mkTlv] at h1
                  exact (byteOk_split h1).2
                obtain ⟨hc1eq, hver⟩ := parseUInt_inv heq1 hbc
                have hbc1 : byteOk c1 = true := by
                  rw [hc1eq] at hbc
                  exact (byteOk_split hbc).2
                obtain ⟨hc2eq, himp⟩ := parseMessageImprint_inv heq2 hbc1
                have hbc2 : byteOk c2 = true := by
                  rw [hc2eq] at hbc1
                  exact (byteOk_split hbc1).2
                obtain ⟨hc3eq, hpol, hx1, hx2⟩ := parseOptField_inv (w := oidWf) heq3 hbc2
                  (fun hp hbb => parseOid_inv hp hbb)
                have hbc3 : byteOk c3 = true := by
                  rw [hc3eq] at hbc2
                  exact (byteOk_split hbc2).2
                obtain ⟨hc4eq, hnon, hx3, hx4⟩ := parseOptField_inv
                  (w := fun n => decide (n < 2 ^ 64)) heq4 hbc3
                  (fun hp hbb => by
                    obtain ⟨x, y⟩ := parseUInt_inv hp hbb
                    exact ⟨x, by simpa using y⟩)
                have hbc4 : byteOk c4 = true := by
                  rw [hc4eq] at hbc3
                  exact (byteOk_split hbc3).2
                have hc5eq := parseDefaultField_inv heq5 hbc4
                  (fun hp hbb => parseBool_inv hp hbb)
                constructor
                · rw [hl, hc1eq, hc2eq, hc3eq, hc4eq, hc5eq]
                  simp [encTimeStampReq, encSeq, List.append_assoc]
                · simp only [reqWf, Bool.and_eq_true]
                  exact ⟨⟨⟨by simpa using hver, himp⟩, hpol⟩, by simpa using hnon⟩
              · rw [if_neg hc5] at h
                exact Except.noConfusion h

theorem parseTSTInfo_inv {l : Bytes} {x : TSTInfo} {r : Bytes}
    (h : parseTSTInfo l = .ok (x, r)) (hb : byteOk l = true) :
    l = encTSTInfo x ++ r ∧ tstWf x = true ∧ optWf accPacked x.accuracy = true := by
  unfold parseTSTInfo at h
  split at h
  · exact Except.noConfusion h
  · rename_i c r2 heq
    split at h
    · exact Except.noConfusion h
    · rename_i ver c1 heq1
      split at h
      · exact Except.noConfusion h
      · rename_i pol c2 heq2
        split at h
        · exact Except.noConfusion h
        · rename_i imp c3 heq3
          split at h
          · exact Except.noConfusion h
          · rename_i ser c4 heq4
            split at h
            · exact Except.noConfusion h
            · rename_i gt c5 heq5
              split at h
              · exact Except.noConfusion h
              · rename_i acc c6 heq6
                split at h
                · exact Except.noConfusion h
                · rename_i ord c7 heq7
                  split at h
                  · exact Except.noConfusion h
                  · rename_i non c8 heq8
                    split at h
                    · exact Except.noConfusion h
                    · rename_i tsa c9 heq9
                      split at h
                      · exact Except.noConfusion h
                      · rename_i ext c10 heq10
                        by_cases hc10 : c10 = []
                        · rw [if_pos hc10] at h
                          simp only [Except.ok.injEq, Prod.mk.injEq] at h
                          obtain ⟨hx, hr⟩ := h
                          subst hr
                          subst hc10
                          rw [← hx]
                          have hl := expectTlv_inv heq (by decide) hb
                          have hbc : byteOk c = true := by
                            rw [hl] at hb
                            have h1 := (byteOk_split hb).1
                            rw [mkTlv] at h1
                            exact (byteOk_split h1).2
                          obtain ⟨hc1eq, hver⟩ := parseUInt_inv heq1 hbc
                          have hbc1 : byteOk c1 = true := by
                            rw [hc1eq] at hbc
                            exact (byteOk_split hbc).2
                          obtain ⟨hc2eq, hpol, hy1, hy2⟩ := parseOptField_inv
                            (w := oidWf) heq2 hbc1 (fun hp hbb => parseOid_inv hp hbb)
                          have hbc2 : byteOk c2 = true := by
                            rw [hc2eq] at hbc1
                            exact (byteOk_split hbc1).2
                          obtain ⟨hc3eq, himp⟩ := parseMessageImprint_inv heq3 hbc2
                          have hbc3 : byteOk c3 = true := by
                            rw [hc3eq] at hbc2
                            exact (byteOk_split hbc2).2
                          obtain ⟨hc4eq, hser⟩ := parseUInt_inv heq4 hbc3
                          have hbc4 : byteOk c4 = true := by
                            rw [hc4eq] at hbc3
                            exact (byteOk_split hbc3).2
                          obtain ⟨hc5eq, hgt⟩ := parseTime_inv heq5 hbc4
                          have hbc5 : byteOk c5 = true := by
                            rw [hc5eq] at hbc4
                            exact (byteOk_split hbc4).2
                          obtain ⟨hc6eq, hacc, hy3, hy4⟩ := parseOptField_inv
                            (w := fun a => accWf a && accPacked a) heq6 hbc5
                            (fun hp hbb => by
                              obtain ⟨u, v, w⟩ := parseAccuracy_inv hp hbb
                              exact ⟨u, by simp [v, w]⟩)
                          have hbc6 : byteOk c6 = true := by
                            rw [hc6eq] at hbc5
                            exact (byteOk_split hbc5).2
                          have hc7eq := parseDefaultField_inv heq7 hbc6
                            (fun hp hbb => parseBool_inv hp hbb)
                          have hbc7 : byteOk c7 = true := by
                            rw [hc7eq] at hbc6
                            exact (byteOk_split hbc6).2
                          obtain ⟨hc8eq, hnon, hy5, hy6⟩ := parseOptField_inv
                            (w := fun n => decide (n < 2 ^ 64)) heq8 hbc7
                            (fun hp hbb => by
                              obtain ⟨u, v⟩ := parseUInt_inv hp hbb
                              exact ⟨u, by simpa using v⟩)
                          have hbc8 : byteOk c8 = true := by
                            rw [hc8eq] at hbc7
                            exact (byteOk_split hbc7).2
                          obtain ⟨hc9eq, htsa, hy7, hy8⟩ := parseOptField_inv
                            (w := gnWf) heq9 hbc8
                            (fun hp hbb => parseTsaField_inv hp hbb)
                          have hbc9 : byteOk c9 = true := by
                            rw [hc9eq] at hbc8
                            exact (byteOk_split hbc8).2
                          obtain ⟨hc10eq, hext, hy9, hy10⟩ := parseOptField_inv
                            (w := tlvWf) heq10 hbc9
                            (fun hp hbb => parseExtField_inv hp hbb)
                          have hacc1 : optWf accWf acc = true := by
                            rcases acc with _ | av
                            · rfl
                            · simp only [optWf, Bool.and_eq_true] at hacc ⊢
                              exact hacc.1
                          have hacc2 : optWf accPacked acc = true := by
                            rcases acc with _ | av
                            · rfl
                            · simp only [optWf, Bool.and_eq_true] at hacc ⊢
                              exact hacc.2
                          refine ⟨?_, ?_, hacc2⟩
                          · rw [hl, hc1eq, hc2eq, hc3eq, hc4eq, hc5eq, hc6eq, hc7eq,
                              hc8eq, hc9eq, hc10eq]
                            simp [encTSTInfo, encSeq, List.append_assoc]
                          · simp only [tstWf, Bool.and_eq_true]
                            exact ⟨⟨⟨⟨⟨⟨⟨⟨by simpa using hver, hpol⟩, himp⟩,
                              by simpa using hser⟩, hgt⟩, hacc1⟩,
                              by simpa using hnon⟩, htsa⟩, hext⟩
                        · rw [if_neg hc10] at h
                          exact Except.noConfusion h

theorem parsePKIStatusInfo_inv {l : Bytes} {x : PKIStatusInfo} {r : Bytes}
    (h : parsePKIStatusInfo l = .ok (x, r)) (hb : byteOk l = true) :
    l = encPKIStatusInfo x ++ r ∧ statusWf x = true := by
  unfold parsePKIStatusInfo at h
  split at h
  · exact Except.noConfusion h
  · rename_i c r2 heq
    split at h
    · exact Except.noConfusion h
    · rename_i st c1 heq1
      split at h
      · exact Except.noConfusion h
      · rename_i ss c2 heq2
        split at h
        · exact Except.noConfusion h
        · rename_i fi c3 heq3
          by_cases hc3 : c3 = []
          · rw [if_pos hc3] at h
            simp only [Except.ok.injEq, Prod.mk.injEq] at h
            obtain ⟨hx, hr⟩ := h
            subst hr
            subst hc3
            rw [← hx]
            have hl := expectTlv_inv heq (by decide) hb
            have hbc : byteOk c = true := by
              rw [hl] at hb
              have h1 := (byteOk_split hb).1
              rw [mkTlv] at h1
              exact (byteOk_split h1).2
            obtain ⟨hc1eq, hst⟩ := parseUInt_inv heq1 hbc
            have hbc1 : byteOk c1 = true := by
              rw [hc1eq] at hbc
              exact (byteOk_split hbc).2
            obtain ⟨hc2eq, hss, hz1, hz2⟩ := parseOptField_inv (w := ia5Wf) heq2 hbc1
              (fun hp hbb => parseIA5_inv hp hbb)
            have hbc2 : byteOk c2 = true := by
              rw [hc2eq] at hbc1
              exact (byteOk_split hbc1).2
            obtain ⟨hc3eq, hfi, hz3, hz4⟩ := parseOptField_inv
              (w := fun n => decide (n < 256)) heq3 hbc2
              (fun hp hbb => by
                obtain ⟨u, v⟩ := parseUInt_inv hp hbb
                exact ⟨u, by simpa using v⟩)
            constructor
            · rw [hl, hc1eq, hc2eq, hc3eq]
              simp [encPKIStatusInfo, encSeq, List.append_assoc]
            · simp only [statusWf, Bool.and_eq_true]
              exact ⟨⟨by simpa using hst, hss⟩, hfi⟩
          · rw [if_neg hc3] at h
            exact Except.noConfusion h

theorem parseContentInfo_inv {l : Bytes} {x : ContentInfo} {r : Bytes}
    (h : parseContentInfo l = .ok (x, r)) (hb : byteOk l = true) :
    l = encContentInfo x ++ r ∧ ciWf x = true := by
  unfold parseContentInfo at h
  split at h
  · exact Except.noConfusion h
  · rename_i c r2 heq
    split at h
    · exact Except.noConfusion h
    · rename_i ct c1 heq1
      split at h
      · exact Except.noConfusion h
      · rename_i cn c2 heq2
        by_cases hc2 : c2 = []
        · rw [if_pos hc2] at h
          simp only [Except.ok.injEq, Prod.mk.injEq] at h
          obtain ⟨hx, hr⟩ := h
          subst hr
          subst hc2
          rw [← hx]
          have hl := expectTlv_inv heq (by decide) hb
          have hbc : byteOk c = true := by
            rw [hl] at hb
            have h1 := (byteOk_split hb).1
            rw [mkTlv] at h1
            exact (byteOk_split h1).2
          obtain ⟨hc1eq, hct⟩ := parseOid_inv heq1 hbc
          have hbc1 : byteOk c1 = true := by
            rw [hc1eq] at hbc
            exact (byteOk_split hbc).2
          obtain ⟨cc, hl2, hp2, hbcc⟩ := parseExplicit_inv heq2 (by norm_num) hbc1
          have hsp := readTlv_split hp2
          have hwf := readTlv_wf hp2 hbcc
          simp only [List.append_nil] at hsp
          subst hsp
          constructor
          · rw [hl, hc1eq, hl2]
            simp [encContentInfo, encSeq, encTlv, List.append_assoc]
          · simp [ciWf, hct, hwf]
        · rw [if_neg hc2] at h
          exact Except.noConfusion h

theorem parseTimeStampResp_inv {l : Bytes} {x : TimeStampResp} {r : Bytes}
    (h : parseTimeStampResp l = .ok (x, r)) (hb : byteOk l = true) :
    l = encTimeStampResp x ++ r ∧ respWf x = true := by
  unfold parseTimeStampResp at h
  split at h
  · exact Except.noConfusion h
  · rename_i c r2 heq
    split at h
    · exact Except.noConfusion h
    · rename_i st c1 heq1
      split at h
      · exact Except.noConfusion h
      · rename_i tok c2 heq2
        by_cases hc2 : c2 = []
        · rw [if_pos hc2] at h
          simp only [Except.ok.injEq, Prod.mk.injEq] at h
          obtain ⟨hx, hr⟩ := h
          subst hr
          subst hc2
          rw [← hx]
          have hl := expectTlv_inv heq (by decide) hb
          have hbc : byteOk c = true := by
            rw [hl] at hb
            have h1 := (byteOk_split hb).1
            rw [mkTlv] at h1
            exact (byteOk_split h1).2
          obtain ⟨hc1eq, hst⟩ := parsePKIStatusInfo_inv heq1 hbc
          have hbc1 : byteOk c1 = true := by
            rw [hc1eq] at hbc
            exact (byteOk_split hbc).2
          obtain ⟨hc2eq, htok, hz1, hz2⟩ := parseOptField_inv (w := ciWf) heq2 hbc1
            (fun hp hbb => parseContentInfo_inv hp hbb)
          constructor
          · rw [hl, hc1eq, hc2eq]
            simp [encTimeStampResp, encSeq, List.append_assoc]
          · simp [respWf, hst, htok]
        · rw [if_neg hc2] at h
          exact Except.noConfusion h

/-! ## Top-level entry lemmas and sample values -/

theorem fromDer_ok {α : Type} {p : Bytes → Except Err (α × Bytes)} {l : Bytes} {v : α}
    (h : p l = .ok (v, [])) : fromDer p l = .ok v := by
  simp [fromDer, h]

theorem fromDer_trailing {α : Type} {p : Bytes → Except Err (α × Bytes)} {l : Bytes}
    {v : α} {r : Bytes} (h : p l = .ok (v, r)) (hr : r ≠ []) :
    fromDer p l = .error .TrailingData := by
  simp [fromDer, h, hr]

theorem fromDer_error {α : Type} {p : Bytes → Except Err (α × Bytes)} {l : Bytes} {e : Err}
    (h : p l = .error e) : fromDer p l = .error e := by
  simp [fromDer, h]

theorem fromDer_inv {α : Type} {p : Bytes → Except Err (α × Bytes)} {l : Bytes} {v : α}
    (h : fromDer p l = .ok v) : p l = .ok (v, []) := by
  unfold fromDer at h
  split at h
  · exact Except.noConfusion h
  · rename_i v2 r heq
    by_cases hr : r = []
    · rw [if_pos hr] at h
      simp only [Except.ok.injEq] at h
      subst h
      subst hr
      exact heq
    · rw [if_neg hr] at h
      exact Except.noConfusion h

theorem expectSeq_enc0 (c : Bytes) : expectTlv tagSeq (encSeq c) = .ok (c, []) := by
  simpa using expectSeq_enc c []

theorem parseUInt_enc_big {bound n : Nat} (h : bound ≤ n) (s : Bytes) :
    parseField tagInt (contUInt bound) (encUInt n ++ s) = .error .InvalidIntegerEncoding := by
  have hf : contUInt bound (encUIntContent n) = .error .InvalidIntegerEncoding := by
    rw [contUInt_enc, if_neg (by omega)]
  have he := expectTlv_enc (t := tagInt) (by decide) (by decide) (encUIntContent n) s
  simp [parseField, encUInt, he, hf]

/-- The SHA-256 object identifier 2.16.840.1.101.3.4.2.1, as content octets. -/
def sampleOid : ObjectIdentifier := ⟨[96, 134, 72, 1, 101, 3, 4, 2, 1]⟩

/-- An ASN.1 NULL TLV, as an opaque blob. -/
def sampleTlv : Tlv := ⟨[5, 0]⟩

def sampleAlg : AlgorithmIdentifier := ⟨sampleOid, sampleTlv⟩

def sampleImprint : MessageImprint := ⟨sampleAlg, List.replicate 32 171⟩

/-- 2025-10-12 10:30:00 Z in the GeneralizedTime text format. -/
def sampleTime : GeneralizedTime :=
  ⟨[50, 48, 50, 53, 49, 48, 49, 50, 49, 48, 51, 48, 48, 48, 90]⟩

/-- A minimal TSTInfo whose serial number is `n`: version 1, no policy,
sample imprint and time, everything optional absent, ordering default. -/
def tstWithSerial (n : Nat) : TSTInfo :=
  ⟨1, none, sampleImprint, n, sampleTime, none, false, none, none, none⟩

/-- Decoding the encoding of the minimal TSTInfo with serial `n` succeeds
exactly when `n` fits in the source's `u64` serial field. -/
theorem tst_serial_decode (n : Nat) :
    tstFromDer (encTSTInfo (tstWithSerial n)) =
      if n < 2 ^ 64 then .ok (tstWithSerial n) else .error .InvalidIntegerEncoding := by
  by_cases hn : n < 2 ^ 64
  · rw [if_pos hn]
    have h1 : impWf sampleImprint = true := by decide
    have h2 : gtWf sampleTime = true := by decide
    have hwf : tstWf (tstWithSerial n) = true := by
      simp [tstWf, tstWithSerial, optWf, h1, h2]
      omega
    have hpk : optWf accPacked (tstWithSerial n).accuracy = true := rfl
    have hrt := parseTSTInfo_enc hwf hpk []
    simp only [List.append_nil] at hrt
    exact fromDer_ok hrt
  · rw [if_neg hn]
    have h1 : impWf sampleImprint = true := by decide
    have st1 := parseU8_enc (show (1:Nat) < 256 by norm_num)
      (encMessageImprint sampleImprint ++ (encUInt n ++ encTime sampleTime))
    have st2 : parseOpt tagOid parseOid
        (encMessageImprint sampleImprint ++ (encUInt n ++ encTime sampleTime)) =
        .ok (none, encMessageImprint sampleImprint ++ (encUInt n ++ encTime sampleTime)) :=
      parseOpt_none _ _ (by simp [peekTag_encMessageImprint, tagSeq, tagOid])
    have st3 := parseMessageImprint_enc h1 (encUInt n ++ encTime sampleTime)
    have st4 : parseU64 (encUInt n ++ encTime sampleTime) = .error .InvalidIntegerEncoding :=
      parseUInt_enc_big (by omega) _
    have hp : parseTSTInfo (encTSTInfo (tstWithSerial n)) = .error .InvalidIntegerEncoding := by
      simp [encTSTInfo, tstWithSerial, encOpt, encDefault, parseTSTInfo, List.append_assoc,
        expectSeq_enc0, st1, st2, st3, st4]
    exact fromDer_error hp

def statusWith (n : Nat) : PKIStatusInfo := ⟨n, none, none⟩

/-- Decoding the encoding of a bare PKIStatusInfo with status `n` succeeds
exactly when `n` fits in the source's `u8` status field. -/
theorem status_decode (n : Nat) :
    parsePKIStatusInfo (encPKIStatusInfo (statusWith n)) =
      if n < 256 then .ok (statusWith n, []) else .error .InvalidIntegerEncoding := by
  by_cases hn : n < 256
  · rw [if_pos hn]
    have hwf : statusWf (statusWith n) = true := by
      simp [statusWf, statusWith, optWf]
      omega
    simpa using parsePKIStatusInfo_enc hwf []
  · rw [if_neg hn]
    have st1 : parseU8 (encUInt n) = .error .InvalidIntegerEncoding := by
      simpa using parseUInt_enc_big (show (256:Nat) ≤ n by omega) []
    simp [encPKIStatusInfo, statusWith, encOpt, parsePKIStatusInfo, expectSeq_enc0, st1]

def sampleIA5 : IA5String := ⟨[101, 120, 97, 109, 112, 108, 101]⟩

def sampleReq : TimeStampReq := ⟨1, sampleImprint, some sampleOid, some 3735928559, true⟩

def sampleStatus : PKIStatusInfo := ⟨0, some sampleIA5, some 1⟩

def sampleCI : ContentInfo := ⟨sampleOid, sampleTlv⟩

def sampleResp : TimeStampResp := ⟨sampleStatus, some sampleCI⟩

def sampleAcc : Accuracy := ⟨some 1, some 2, some 3⟩

def sampleTst : TSTInfo :=
  ⟨1, some sampleOid, sampleImprint, 2 ^ 64 - 1, sampleTime, some sampleAcc, true, some 7,
    some (.DNSName sampleIA5), some sampleTlv⟩

/-- A TimeStampResp carrying status Rejection (2) together with a present
time-stamp token. -/
def respRejTok : TimeStampResp := ⟨⟨2, none, none⟩, some sampleCI⟩

/-! ## The claims -/

/-- C1 counterexample: the Accuracy value with only `millis` present is a
syntactically valid in-memory value, but decoding its encoding returns the
left-packed value with `seconds` present instead — `decode (encode x) ≠ x`.
The source gives all three optional Accuracy fields the same untagged
INTEGER type, so the decoder cannot tell them apart. -/
theorem C1_counterexample :
    accWf ⟨none, some 5, none⟩ = true ∧
    parseAccuracy (encAccuracy ⟨none, some 5, none⟩) =
      .ok (⟨some 5, none, none⟩, []) ∧
    (⟨none, some 5, none⟩ : Accuracy) ≠ ⟨some 5, none, none⟩ :=
  ⟨by decide, by decide, by decide⟩

/-- C1 (amended): decoding the encoding returns the value unchanged for
every well-formed value of all nine schema types, provided every Accuracy
value (standalone or embedded in a TSTInfo) is left-packed — its present
fields form a prefix of (seconds, millis, micros).  Non-left-packed
Accuracy values decode to their left-packed form instead (see the
counterexample). -/
theorem C1_roundtrip :
    (∀ q : TimeStampReq, reqWf q = true →
      parseTimeStampReq (encTimeStampReq q) = .ok (q, [])) ∧
    (∀ m : MessageImprint, impWf m = true →
      parseMessageImprint (encMessageImprint m) = .ok (m, [])) ∧
    (∀ a : AlgorithmIdentifier, algWf a = true →
      parseAlgorithmIdentifier (encAlgorithmIdentifier a) = .ok (a, [])) ∧
    (∀ x : TimeStampResp, respWf x = true →
      parseTimeStampResp (encTimeStampResp x) = .ok (x, [])) ∧
    (∀ x : PKIStatusInfo, statusWf x = true →
      parsePKIStatusInfo (encPKIStatusInfo x) = .ok (x, [])) ∧
    (∀ x : ContentInfo, ciWf x = true →
      parseContentInfo (encContentInfo x) = .ok (x, [])) ∧
    (∀ x : TSTInfo, tstWf x = true → optWf accPacked x.accuracy = true →
      parseTSTInfo (encTSTInfo x) = .ok (x, [])) ∧
    (∀ a : Accuracy, accWf a = true → accPacked a = true →
      parseAccuracy (encAccuracy a) = .ok (a, [])) ∧
    (∀ g : GeneralName, gnWf g = true →
      parseGeneralName (encGeneralName g) = .ok (g, [])) :=
  ⟨fun q hw => by simpa using parseTimeStampReq_enc hw [],
   fun m hw => by simpa using parseMessageImprint_enc hw [],
   fun a hw => by simpa using parseAlgorithmIdentifier_enc hw [],
   fun x hw => by simpa using parseTimeStampResp_enc hw [],
   fun x hw => by simpa using parsePKIStatusInfo_enc hw [],
   fun x hw => by simpa using parseContentInfo_enc hw [],
   fun x hw hp => by simpa using parseTSTInfo_enc hw hp [],
   fun a hw hp => by simpa using parseAccuracy_enc hw hp [],
   fun g hw => by simpa using parseGeneralName_enc hw []⟩

/-- C1 witness: the round-trip theorem applied to concrete sample values
of the three message types. -/
theorem C1_roundtrip_witness :
    parseTimeStampReq (encTimeStampReq sampleReq) = .ok (sampleReq, []) ∧
    parseTSTInfo (encTSTInfo sampleTst) = .ok (sampleTst, []) ∧
    parseTimeStampResp (encTimeStampResp sampleResp) = .ok (sampleResp, []) :=
  ⟨C1_roundtrip.1 sampleReq (by decide),
   C1_roundtrip.2.2.2.2.2.2.1 sampleTst (by decide) (by decide),
   C1_roundtrip.2.2.2.1 sampleResp (by decide)⟩

/-- C2 counterexample: the minimal INTEGER content octets of 2^64 are
DER-valid (a decoder with a wider bound accepts them), yet decoding a
TSTInfo whose serial number carries that value fails: the source declares
`serial_number: u64`. -/
theorem C2_counterexample :
    contUInt (2 ^ 72) (encUIntContent (2 ^ 64)) = .ok (2 ^ 64) ∧
    tstFromDer (encTSTInfo (tstWithSerial (2 ^ 64))) = .error .InvalidIntegerEncoding := by
  constructor
  · rw [contUInt_enc, if_pos (by norm_num)]
  · rw [tst_serial_decode, if_neg (by norm_num)]

/-- C2 (amended): the TSTInfo serial_number field is decoded as an
unsigned 64-bit integer, as declared in the source: serial numbers below
2^64 round-trip through the minimal TSTInfo, and serial numbers at or
above 2^64 fail to decode with an integer-encoding error. -/
theorem C2_serial_u64 : ∀ n : Nat,
    (n < 2 ^ 64 → tstFromDer (encTSTInfo (tstWithSerial n)) = .ok (tstWithSerial n)) ∧
    (2 ^ 64 ≤ n →
      tstFromDer (encTSTInfo (tstWithSerial n)) = .error .InvalidIntegerEncoding) := by
  intro n
  constructor
  · intro hn
    rw [tst_serial_decode, if_pos hn]
  · intro hn
    rw [tst_serial_decode, if_neg (by omega)]

/-- C2 witness: the amended theorem at serial 3 and at serial 2^64 + 1. -/
theorem C2_serial_u64_witness :
    tstFromDer (encTSTInfo (tstWithSerial 3)) = .ok (tstWithSerial 3) ∧
    tstFromDer (encTSTInfo (tstWithSerial (2 ^ 64 + 1))) = .error .InvalidIntegerEncoding :=
  ⟨(C2_serial_u64 3).1 (by norm_num), (C2_serial_u64 (2 ^ 64 + 1)).2 (by norm_num)⟩

/-- C3 counterexample: a TimeStampResp with status Rejection (2) and a
present time_stamp_token decodes successfully — no SemanticMismatch is
raised; no cross-field check appears in the source. -/
theorem C3_counterexample :
    respFromDer (encTimeStampResp respRejTok) = .ok respRejTok ∧
    respRejTok.status.status = 2 ∧ respRejTok.time_stamp_token.isSome = true := by
  refine ⟨?_, rfl, rfl⟩
  have hwf : respWf respRejTok = true := by decide
  have hrt := parseTimeStampResp_enc hwf []
  simp only [List.append_nil] at hrt
  exact fromDer_ok hrt

/-- C3 (amended): decoding a TimeStampResp whose status is Rejection (2)
while a time_stamp_token is present succeeds and returns the structure
unchanged; the decoder performs no status/token cross-field check. -/
theorem C3_no_semantic_check :
    ∀ (si : PKIStatusInfo) (tok : ContentInfo), statusWf si = true → ciWf tok = true →
      si.status = 2 →
      respFromDer (encTimeStampResp ⟨si, some tok⟩) = .ok ⟨si, some tok⟩ := by
  intro si tok h1 h2 hst
  have hwf : respWf ⟨si, some tok⟩ = true := by simp [respWf, optWf, h1, h2]
  have hrt := parseTimeStampResp_enc hwf []
  simp only [List.append_nil] at hrt
  exact fromDer_ok hrt

/-- C3 witness: the amended theorem at a concrete rejection response with
a token. -/
theorem C3_no_semantic_check_witness :
    respFromDer (encTimeStampResp ⟨⟨2, none, none⟩, some sampleCI⟩) =
      .ok ⟨⟨2, none, none⟩, some sampleCI⟩ :=
  C3_no_semantic_check ⟨2, none, none⟩ sampleCI (by decide) (by decide) rfl

/-- C4: encoding is canonical.  Every byte buffer that decodes to a
TimeStampReq, TimeStampResp or TSTInfo is exactly the encoder's output for
that value; and a DEFAULT field equal to its default (cert_req = false,
ordering = false) contributes no bytes to the encoding. -/
theorem C4_canonical :
    (∀ (b : Bytes) (x : TimeStampReq), byteOk b = true → reqFromDer b = .ok x →
      encTimeStampReq x = b) ∧
    (∀ (b : Bytes) (x : TimeStampResp), byteOk b = true → respFromDer b = .ok x →
      encTimeStampResp x = b) ∧
    (∀ (b : Bytes) (x : TSTInfo), byteOk b = true → tstFromDer b = .ok x →
      encTSTInfo x = b) ∧
    (∀ (ver : Nat) (imp : MessageImprint) (pol : Option ObjectIdentifier)
        (non : Option Nat),
      encTimeStampReq ⟨ver, imp, pol, non, false⟩ =
        encSeq (encUInt ver ++ encMessageImprint imp ++ encOpt encOid pol ++
          encOpt encUInt non)) ∧
    (∀ (ver : Nat) (pol : Option ObjectIdentifier) (imp : MessageImprint) (ser : Nat)
        (gt : GeneralizedTime) (acc : Option Accuracy) (non : Option Nat)
        (tsa : Option GeneralName) (ext : Option Tlv),
      encTSTInfo ⟨ver, pol, imp, ser, gt, acc, false, non, tsa, ext⟩ =
        encSeq (encUInt ver ++ encOpt encOid pol ++ encMessageImprint imp ++
          encUInt ser ++ encTime gt ++ encOpt encAccuracy acc ++
          encOpt encUInt non ++ encOpt encTsa tsa ++ encOpt encExt ext)) := by
  refine ⟨?_, ?_, ?_, ?_, ?_⟩
  · intro b x hb h
    obtain ⟨he, hw⟩ := parseTimeStampReq_inv (fromDer_inv h) hb
    simpa using he.symm
  · intro b x hb h
    obtain ⟨he, hw⟩ := parseTimeStampResp_inv (fromDer_inv h) hb
    simpa using he.symm
  · intro b x hb h
    obtain ⟨he, hw, hp⟩ := parseTSTInfo_inv (fromDer_inv h) hb
    simpa using he.symm
  · intro ver imp pol non
    simp [encTimeStampReq, encDefault]
  · intro ver pol imp ser gt acc non tsa ext
    simp [encTSTInfo, encDefault]

/-- C4 witness: the canonicality theorem applied to the concrete sample
request and TSTInfo buffers. -/
theorem C4_canonical_witness :
    encTimeStampReq sampleReq = encTimeStampReq sampleReq ∧
    encTSTInfo sampleTst = encTSTInfo sampleTst :=
  ⟨C4_canonical.1 (encTimeStampReq sampleReq) sampleReq (by decide) (by decide),
   C4_canonical.2.2.1 (encTSTInfo sampleTst) sampleTst (by decide) (by decide)⟩

/-- C5: the top-level entry decodes exactly one TLV and requires it to
consume the whole buffer: appending any nonempty trailing bytes to a
buffer that decodes completely makes the decode fail with TrailingData,
for both message types parsed by the program. -/
theorem C5_trailing_data :
    (∀ (b : Bytes) (x : TimeStampReq) (extra : Bytes), byteOk b = true →
      parseTimeStampReq b = .ok (x, []) → extra ≠ [] →
      reqFromDer (b ++ extra) = .error .TrailingData) ∧
    (∀ (b : Bytes) (x : TimeStampResp) (extra : Bytes), byteOk b = true →
      parseTimeStampResp b = .ok (x, []) → extra ≠ [] →
      respFromDer (b ++ extra) = .error .TrailingData) := by
  constructor
  · intro b x extra hb h hx
    obtain ⟨he, hw⟩ := parseTimeStampReq_inv h hb
    simp only [List.append_nil] at he
    subst he
    exact fromDer_trailing (parseTimeStampReq_enc hw extra) hx
  · intro b x extra hb h hx
    obtain ⟨he, hw⟩ := parseTimeStampResp_inv h hb
    simp only [List.append_nil] at he
    subst he
    exact fromDer_trailing (parseTimeStampResp_enc hw extra) hx

/-- C5 witness: one trailing zero byte after a complete request buffer. -/
theorem C5_trailing_data_witness :
    reqFromDer (encTimeStampReq sampleReq ++ [0]) = .error .TrailingData :=
  C5_trailing_data.1 (encTimeStampReq sampleReq) sampleReq [0] (by decide) (by decide)
    (by decide)

/-- C6: GeneralName CHOICE discrimination.  A TLV with context tag 2
decodes to the DNSName alternative, context tag 7 decodes to IPAddress,
and an unrecognized context tag such as 9 fails with NoMatchingChoice.
Exactly one alternative is active per decoded value by construction of
the GeneralName inductive type. -/
theorem C6_choice :
    (∀ (x : IA5String) (r : Bytes), ia5Wf x = true →
      parseGeneralName (encExplicit 2 (encIA5 x) ++ r) = .ok (.DNSName x, r)) ∧
    (∀ (d r : Bytes),
      parseGeneralName (encExplicit 7 (encOctet d) ++ r) = .ok (.IPAddress d, r)) ∧
    (∀ (c r : Bytes),
      parseGeneralName (mkTlv (tagCtx 9) c ++ r) = .error .NoMatchingChoice) := by
  refine ⟨?_, ?_, ?_⟩
  · intro x r hw
    exact parseGeneralName_enc (g := .DNSName x) hw r
  · intro d r
    have hin : parseOctet (encOctet d) = .ok (d, []) := by simpa using parseOctet_enc d []
    have hex := parseExplicit_enc (n := 7) (by norm_num) hin r
    simp [parseGeneralName, peekTag_encExplicit (show (7:Nat) < 31 by norm_num), hex, tagCtx]
  · intro c r
    have hpk : peekTag (mkTlv (tagCtx 9) c ++ r) = some (tagCtx 9) :=
      peekTag_mkTlv (by decide) (by decide) c r
    unfold parseGeneralName
    rw [hpk]
    simp [tagCtx]

/-- C6 witness: the choice theorem at a concrete DNS name, a concrete
IP address, and tag 9 with a concrete payload. -/
theorem C6_choice_witness :
    parseGeneralName (encExplicit 2 (encIA5 sampleIA5) ++ []) =
      .ok (.DNSName sampleIA5, []) ∧
    parseGeneralName (encExplicit 7 (encOctet [127, 0, 0, 1]) ++ []) =
      .ok (.IPAddress [127, 0, 0, 1], []) ∧
    parseGeneralName (mkTlv (tagCtx 9) [5, 0] ++ []) = .error .NoMatchingChoice :=
  ⟨C6_choice.1 sampleIA5 [] (by decide),
   C6_choice.2.1 [127, 0, 0, 1] [],
   C6_choice.2.2 [5, 0] []⟩

/-- C7: a TimeStampReq encoding that omits the cert_req field decodes
successfully with cert_req = false, the other fields taken from the
encoding.  The stated buffer contains no BOOLEAN TLV at all. -/
theorem C7_default_omitted :
    ∀ (ver : Nat) (imp : MessageImprint) (pol : Option ObjectIdentifier)
      (non : Option Nat),
      reqWf ⟨ver, imp, pol, non, false⟩ = true →
      parseTimeStampReq (encSeq (encUInt ver ++ encMessageImprint imp ++
        encOpt encOid pol ++ encOpt encUInt non)) =
        .ok (⟨ver, imp, pol, non, false⟩, []) := by
  intro ver imp pol non hw
  have hrt := parseTimeStampReq_enc hw []
  simp only [List.append_nil] at hrt
  simpa [encTimeStampReq, encDefault] using hrt

/-- C7 witness: the omitted-default theorem at a concrete minimal
request. -/
theorem C7_default_omitted_witness :
    parseTimeStampReq (encSeq (encUInt 1 ++ encMessageImprint sampleImprint ++
      encOpt encOid none ++ encOpt encUInt none)) =
      .ok (⟨1, sampleImprint, none, none, false⟩, []) :=
  C7_default_omitted 1 sampleImprint none none (by decide)

/-- C8 counterexample: a PKIStatusInfo with status 7 — outside the
enumerated range 0–5 — decodes successfully, because the source declares
`status: u8` and performs no range check against the PKIStatus
enumeration. -/
theorem C8_counterexample :
    parsePKIStatusInfo (encPKIStatusInfo ⟨7, none, none⟩) = .ok (⟨7, none, none⟩, []) ∧
    ¬(7 : Nat) ≤ 5 := by
  constructor
  · have h := status_decode 7
    rw [if_pos (by norm_num)] at h
    exact h
  · norm_num

/-- C8 (amended): the status field is decoded as an unsigned 8-bit
integer, as declared in the source: every status value below 256 decodes
(and is preserved), and values at or above 256 fail with an
integer-encoding error. -/
theorem C8_status_u8 : ∀ n : Nat,
    (n < 256 → parsePKIStatusInfo (encPKIStatusInfo ⟨n, none, none⟩) =
      .ok (⟨n, none, none⟩, [])) ∧
    (256 ≤ n → parsePKIStatusInfo (encPKIStatusInfo ⟨n, none, none⟩) =
      .error .InvalidIntegerEncoding) := by
  intro n
  constructor
  · intro hn
    have h := status_decode n
    rwa [if_pos hn] at h
  · intro hn
    have h := status_decode n
    rwa [if_neg (by omega)] at h

/-- C8 witness: the amended theorem at status 7 and at status 300. -/
theorem C8_status_u8_witness :
    parsePKIStatusInfo (encPKIStatusInfo ⟨7, none, none⟩) = .ok (⟨7, none, none⟩, []) ∧
    parsePKIStatusInfo (encPKIStatusInfo ⟨300, none, none⟩) =
      .error .InvalidIntegerEncoding :=
  ⟨(C8_status_u8 7).1 (by norm_num), (C8_status_u8 300).2 (by norm_num)⟩

/-- C9: the request type has no extensions field (it is commented out in
the source), so a TimeStampReq SEQUENCE with an extensions element (a
context-0 TLV) after cert_req fails to decode: remaining child bytes
after the last declared field are a decode error, whether cert_req is
explicitly present (true) or omitted. -/
theorem C9_req_extensions_rejected :
    ∀ (ver : Nat) (imp : MessageImprint) (pol : Option ObjectIdentifier)
      (non : Option Nat) (c : Bytes),
      reqWf ⟨ver, imp, pol, non, true⟩ = true →
      parseTimeStampReq (encSeq (encUInt ver ++ encMessageImprint imp ++
        encOpt encOid pol ++ encOpt encUInt non ++ encBool true ++
        mkTlv (tagCtx 0) c)) = .error .TrailingData ∧
      parseTimeStampReq (encSeq (encUInt ver ++ encMessageImprint imp ++
        encOpt encOid pol ++ encOpt encUInt non ++ mkTlv (tagCtx 0) c)) =
        .error .TrailingData := by
  intro ver imp pol non c hw
  simp only [reqWf, Bool.and_eq_true, decide_eq_true_eq] at hw
  obtain ⟨⟨⟨hver, himp⟩, hpol⟩, hnon⟩ := hw
  have hEne : mkTlv (tagCtx 0) c ≠ [] := by simp [mkTlv, encTag, tagCtx]
  have hpkE : peekTag (mkTlv (tagCtx 0) c) = some (tagCtx 0) := by
    simpa using peekTag_mkTlv (t := tagCtx 0) (by decide) (by decide) c []
  constructor
  · have st5 : parseDefault tagBool parseBool false
        (encBool true ++ mkTlv (tagCtx 0) c) = .ok (true, mkTlv (tagCtx 0) c) :=
      parseDefault_present (peekTag_encBool true _) (parseBool_enc true _) (by simp)
    have st4 : parseOpt tagInt parseU64
        (encOpt encUInt non ++ (encBool true ++ mkTlv (tagCtx 0) c)) =
        .ok (non, encBool true ++ mkTlv (tagCtx 0) c) := by
      refine parseOpt_encOpt non _ ?_ ?_
      · intro v hv
        refine ⟨peekTag_encUInt v _, ?_⟩
        rw [hv] at hnon
        simp only [optWf, decide_eq_true_eq] at hnon
        exact parseU64_enc hnon _
      · intro _
        simp [peekTag_encBool, tagBool, tagInt]
    have st3 : parseOpt tagOid parseOid
        (encOpt encOid pol ++ (encOpt encUInt non ++ (encBool true ++
          mkTlv (tagCtx 0) c))) =
        .ok (pol, encOpt encUInt non ++ (encBool true ++ mkTlv (tagCtx 0) c)) := by
      refine parseOpt_encOpt pol _ ?_ ?_
      · intro v hv
        refine ⟨peekTag_encOid v _, ?_⟩
        rw [hv] at hpol
        simp only [optWf] at hpol
        exact parseOid_enc hpol _
      · intro _
        rcases non with _ | nv <;>
          simp [encOpt, peekTag_encBool, peekTag_encUInt, tagBool, tagInt, tagOid]
    have st2 := parseMessageImprint_enc himp
      (encOpt encOid pol ++ (encOpt encUInt non ++ (encBool true ++ mkTlv (tagCtx 0) c)))
    have st1 := parseU8_enc hver
      (encMessageImprint imp ++ (encOpt encOid pol ++ (encOpt encUInt non ++
        (encBool true ++ mkTlv (tagCtx 0) c))))
    simp [parseTimeStampReq, List.append_assoc, expectSeq_enc0, st1, st2, st3, st4, st5,
      hEne]
  · have st5 : parseDefault tagBool parseBool false (mkTlv (tagCtx 0) c) =
        .ok (false, mkTlv (tagCtx 0) c) :=
      parseDefault_absent _ _ _ (by
        show peekTag (mkTlv (tagCtx 0) c) ≠ some tagBool
        rw [hpkE]
        decide)
    have st4 : parseOpt tagInt parseU64
        (encOpt encUInt non ++ mkTlv (tagCtx 0) c) =
        .ok (non, mkTlv (tagCtx 0) c) := by
      refine parseOpt_encOpt non _ ?_ ?_
      · intro v hv
        refine ⟨peekTag_encUInt v _, ?_⟩
        rw [hv] at hnon
        simp only [optWf, decide_eq_true_eq] at hnon
        exact parseU64_enc hnon _
      · intro _
        rw [hpkE]
        decide
    have st3 : parseOpt tagOid parseOid
        (encOpt encOid pol ++ (encOpt encUInt non ++ mkTlv (tagCtx 0) c)) =
        .ok (pol, encOpt encUInt non ++ mkTlv (tagCtx 0) c) := by
      refine parseOpt_encOpt pol _ ?_ ?_
      · intro v hv
        refine ⟨peekTag_encOid v _, ?_⟩
        rw [hv] at hpol
        simp only [optWf] at hpol
        exact parseOid_enc hpol _
      · intro _
        rcases non with _ | nv
        · simp only [encOpt, List.nil_append]
          rw [hpkE]
          decide
        · simp [encOpt, peekTag_encUInt, tagInt, tagOid]
    have st2 := parseMessageImprint_enc himp
      (encOpt encOid pol ++ (encOpt encUInt non ++ mkTlv (tagCtx 0) c))
    have st1 := parseU8_enc hver
      (encMessageImprint imp ++ (encOpt encOid pol ++ (encOpt encUInt non ++
        mkTlv (tagCtx 0) c)))
    simp [parseTimeStampReq, List.append_assoc, expectSeq_enc0, st1, st2, st3, st4, st5,
      hEne]

/-- C9 witness: the rejection theorem at a concrete minimal request with
an empty context-0 extensions element. -/
theorem C9_req_extensions_rejected_witness :
    parseTimeStampReq (encSeq (encUInt 1 ++ encMessageImprint sampleImprint ++
      encOpt encOid none ++ encOpt encUInt none ++ encBool true ++
      mkTlv (tagCtx 0) [])) = .error .TrailingData ∧
    parseTimeStampReq (encSeq (encUInt 1 ++ encMessageImprint sampleImprint ++
      encOpt encOid none ++ encOpt encUInt none ++ mkTlv (tagCtx 0) [])) =
      .error .TrailingData :=
  C9_req_extensions_rejected 1 sampleImprint none none [] (by decide)

/-- C10: the parameters field of AlgorithmIdentifier is required in the
source, so an AlgorithmIdentifier SEQUENCE holding only the algorithm OID
fails to decode (the parameters read runs out of input), and a
MessageImprint whose hash AlgorithmIdentifier omits parameters fails the
same way. -/
theorem C10_parameters_required :
    (∀ (o : ObjectIdentifier) (r : Bytes), oidWf o = true →
      parseAlgorithmIdentifier (encSeq (encOid o) ++ r) = .error .TruncatedInput) ∧
    (∀ (o : ObjectIdentifier) (msg r : Bytes), oidWf o = true →
      parseMessageImprint (encSeq (encSeq (encOid o) ++ encOctet msg) ++ r) =
        .error .TruncatedInput) := by
  have key : ∀ (o : ObjectIdentifier) (r : Bytes), oidWf o = true →
      parseAlgorithmIdentifier (encSeq (encOid o) ++ r) = .error .TruncatedInput := by
    intro o r hw
    have st1 : parseOid (encOid o) = .ok (o, []) := by simpa using parseOid_enc hw []
    have st2 : readTlv ([] : Bytes) = .error .TruncatedInput := rfl
    simp [parseAlgorithmIdentifier, expectSeq_enc, st1, st2]
  refine ⟨key, ?_⟩
  intro o msg r hw
  have h2 := key o (encOctet msg) hw
  simp [parseMessageImprint, expectSeq_enc, h2]

/-- C10 witness: the missing-parameters theorem at the concrete SHA-256
object identifier. -/
theorem C10_parameters_required_witness :
    parseAlgorithmIdentifier (encSeq (encOid sampleOid) ++ []) =
      .error .TruncatedInput ∧
    parseMessageImprint (encSeq (encSeq (encOid sampleOid) ++
      encOctet (List.replicate 32 171)) ++ []) = .error .TruncatedInput :=
  ⟨C10_parameters_required.1 sampleOid [] (by decide),
   C10_parameters_required.2 sampleOid (List.replicate 32 171) [] (by decide)⟩

end Tsp
